import Mathlib

/-!
Verification of the Takeoff-Automation extraction pipeline.

This file gives a shallow embedding, in Lean 4, of the pure computational
core of the pipeline (the Gemini service module and the catalog-merge
handler of the application shell), and proves or refutes the frozen
specification claims about it.

Modelling conventions:
* JavaScript strings are modelled as `List Char`.
* JavaScript `number` values occurring in geometry are modelled as `ℚ`
  (the source never relies on float rounding in the claimed properties).
* `undefined`-able fields are modelled as `Option`.
* A cropped design image (a canvas JPEG data URL in the source) is
  modelled by the data that uniquely determines it: the source image
  index together with the source rectangle that was drawn.
-/

/-- Coerce a Lean string literal to the `List Char` string model. -/
def str (s : String) : List Char := s.data

/-- JavaScript whitespace class `\s` (the code points the source texts use). -/
def isWsChar (c : Char) : Bool :=
  c = ' ' || c = '\t' || c = '\n' || c = '\r' || c = '\x0c' || c = '\x0b'

/-- `needle.isPrefixOf hay` for char lists (model of a JS anchored match). -/
def startsWithL : List Char → List Char → Bool
  | [], _ => true
  | _ :: _, [] => false
  | a :: as, b :: bs => a = b && startsWithL as bs

/-- Model of JS `hay.includes(needle)`: `containsSub needle hay`. -/
def containsSub (needle : List Char) : List Char → Bool
  | [] => needle.isEmpty
  | c :: t => startsWithL needle (c :: t) || containsSub needle t

/-- Model of JS `String.prototype.toLowerCase` on the char-list model. -/
def toLowerL (cs : List Char) : List Char := cs.map Char.toLower

-- ===== Geometry: `cropImage` (src/unnamed/part_003, lines 709-743) =====

/-- The inputs of one `cropImage` call: image pixel dimensions, the
normalized `[ymin, xmin, ymax, xmax]` bounding box and the padding ratio. -/
structure CropInput where
  imgW : ℚ
  imgH : ℚ
  ymin : ℚ
  xmin : ℚ
  ymax : ℚ
  xmax : ℚ
  pad : ℚ
deriving DecidableEq, Repr

/-- The source rectangle handed to `ctx.drawImage`. -/
structure CropRect where
  x : ℚ
  y : ℚ
  w : ℚ
  h : ℚ
deriving DecidableEq, Repr

/-- `paddingX = (xmax - xmin) * paddingPct` -/
def cropPadX (i : CropInput) : ℚ := (i.xmax - i.xmin) * i.pad

/-- `paddingY = (ymax - ymin) * paddingPct` -/
def cropPadY (i : CropInput) : ℚ := (i.ymax - i.ymin) * i.pad

/-- `pixelX` before clamping. -/
def cropPixelX0 (i : CropInput) : ℚ := ((i.xmin - cropPadX i) / 1000) * i.imgW

/-- `pixelY` before clamping. -/
def cropPixelY0 (i : CropInput) : ℚ := ((i.ymin - cropPadY i) / 1000) * i.imgH

/-- `pixelW` before clamping (computed from the unclamped `pixelX`). -/
def cropPixelW0 (i : CropInput) : ℚ :=
  ((i.xmax + cropPadX i) / 1000) * i.imgW - cropPixelX0 i

/-- `pixelH` before clamping (computed from the unclamped `pixelY`). -/
def cropPixelH0 (i : CropInput) : ℚ :=
  ((i.ymax + cropPadY i) / 1000) * i.imgH - cropPixelY0 i

/-- `pixelX = Math.max(0, pixelX)` -/
def cropPixelX (i : CropInput) : ℚ := max 0 (cropPixelX0 i)

/-- `pixelY = Math.max(0, pixelY)` -/
def cropPixelY (i : CropInput) : ℚ := max 0 (cropPixelY0 i)

/-- `pixelW = Math.min(img.width - pixelX, pixelW)` (clamped `pixelX`). -/
def cropPixelW (i : CropInput) : ℚ := min (i.imgW - cropPixelX i) (cropPixelW0 i)

/-- `pixelH = Math.min(img.height - pixelY, pixelH)` (clamped `pixelY`). -/
def cropPixelH (i : CropInput) : ℚ := min (i.imgH - cropPixelY i) (cropPixelH0 i)

/-- The pure content of `cropImage`: either the drawn source rectangle, or
`none` when the sanity check `pixelW <= 0 || pixelH <= 0` discards the crop.
The promise resolves in every case; no error path exists. -/
def cropImage (i : CropInput) : Option CropRect :=
  if cropPixelW i ≤ 0 ∨ cropPixelH i ≤ 0 then none
  else some ⟨cropPixelX i, cropPixelY i, cropPixelW i, cropPixelH i⟩

-- ===== Data model (src/unnamed/part_004, the types module) =====

/-- A cropped design image: a canvas JPEG data URL in the source, determined
by the index of the source image and the drawn source rectangle. -/
inductive DesignImg where
  | crop (imageIndex : Nat) (rect : CropRect)
deriving DecidableEq, Repr

/-- `dataSource` provenance enum. -/
inductive DataSource where
  | schedule
  | visual
  | rule
deriving DecidableEq, Repr

/-- `SignageItem` of the types module; strings are char lists, optional
fields are `Option`, `quantity` is a JS number. -/
structure SignageItem where
  sheet : List Char
  pageNumber : Option Nat
  roomNumber : List Char
  roomName : List Char
  signType : List Char
  isADA : Bool
  quantity : ℚ
  dimensions : List Char
  color : List Char
  material : List Char
  notes : List Char
  boundingBox : Option (List ℚ)
  designImage : Option DesignImg
  dataSource : Option DataSource
deriving DecidableEq, Repr

/-- `SignTypeDefinition` of the types module. -/
structure SignTypeDefinition where
  typeCode : List Char
  category : List Char
  description : List Char
  dimensions : Option (List Char)
  mounting : Option (List Char)
  color : Option (List Char)
  material : Option (List Char)
  boundingBox : Option (List ℚ)
  imageIndex : Option Int
  designImage : Option DesignImg
deriving DecidableEq, Repr

/-- `AnalysisResult` of the types module. -/
structure AnalysisResult where
  takeoff : List SignageItem
  catalog : List SignTypeDefinition
deriving DecidableEq, Repr

-- ===== JS `Map` model: insertion-ordered association list =====

/-- `Map.prototype.set`: replace the value in place when the key exists
(keeping the original insertion position), else append. -/
def setAssoc {V : Type} : List (List Char × V) → List Char → V → List (List Char × V)
  | [], k, v => [(k, v)]
  | (k0, v0) :: rest, k, v =>
    if k0 = k then (k, v) :: rest else (k0, v0) :: setAssoc rest k v

/-- `Map.prototype.get` (with `has` = `isSome`). -/
def lookupAssoc {V : Type} : List (List Char × V) → List Char → Option V
  | [], _ => none
  | (k0, v0) :: rest, k => if k0 = k then some v0 else lookupAssoc rest k

-- ===== `processVisuals` (src/unnamed/part_003, lines 623-706) =====

/-- The auto-correction of `typeDef.imageIndex` (lines 639-644): default to
0 when exactly one image was loaded, else to the last (target) image. -/
def autoImageIndex (numImages : Nat) (idx : Option Int) : Option Int :=
  match idx with
  | some i => some i
  | none =>
    if numImages = 1 then some 0
    else if numImages > 1 then some ((numImages : Int) - 1)
    else none

/-- Catalog pass of `processVisuals` for one type definition: when a 4-number
bounding box and a valid image index are present, crop with padding 0.20 and
assign the crop when (and only when) it succeeds. `dims` are the pixel
dimensions of the loaded images. -/
def processCatalogEntry (dims : List (ℚ × ℚ)) (t : SignTypeDefinition) :
    SignTypeDefinition :=
  match autoImageIndex dims.length t.imageIndex with
  | none => t
  | some i =>
    match t.boundingBox with
    | some [ymin, xmin, ymax, xmax] =>
      if 0 ≤ i ∧ i < (dims.length : Int) then
        let wh := dims.getD i.toNat (0, 0)
        match cropImage ⟨wh.1, wh.2, ymin, xmin, ymax, xmax, (1/5 : ℚ)⟩ with
        | some r => { t with designImage := some (DesignImg.crop i.toNat r) }
        | none => t
      else t
    | _ => t

/-- `const normalize = (s) => s.toLowerCase().replace(/sign|type|[\s\-\.]/g, "")`:
the left-to-right global replacement scan (after lowercasing). -/
def normalizeScan : List Char → List Char
  | 's' :: 'i' :: 'g' :: 'n' :: rest => normalizeScan rest
  | 't' :: 'y' :: 'p' :: 'e' :: rest => normalizeScan rest
  | c :: rest =>
    if isWsChar c || c = '-' || c = '.' then normalizeScan rest
    else c :: normalizeScan rest
  | [] => []

/-- The fuzzy-key normalization used by `processVisuals`. -/
def normalizeKey (cs : List Char) : List Char := normalizeScan (toLowerL cs)

/-- Build `designMap` (keys: lowercased type code, and lowercased description
when truthy) and `fuzzyKeys` (key: normalized type code when truthy) from the
catalog entries that carry a design image (lines 665-675). -/
def buildMaps (catalog : List SignTypeDefinition) :
    List (List Char × DesignImg) × List (List Char × DesignImg) :=
  catalog.foldl (fun maps c =>
    match c.designImage with
    | some img =>
      let dm1 := setAssoc maps.1 (toLowerL c.typeCode) img
      let dm2 := if c.description.isEmpty then dm1
                 else setAssoc dm1 (toLowerL c.description) img
      let fk1 := if c.typeCode.isEmpty then maps.2
                 else setAssoc maps.2 (normalizeKey c.typeCode) img
      (dm2, fk1)
    | none => maps) ([], [])

/-- Takeoff pass of `processVisuals` for one item (lines 679-702): exact match
in `designMap`, then fuzzy-key match, then partial (substring) fuzzy match in
`fuzzyKeys` iteration order. -/
def linkItem (dm fk : List (List Char × DesignImg)) (item : SignageItem) :
    SignageItem :=
  match lookupAssoc dm (toLowerL item.signType) with
  | some img => { item with designImage := some img }
  | none =>
    let normKey := normalizeKey item.signType
    match lookupAssoc fk normKey with
    | some img => { item with designImage := some img }
    | none =>
      match fk.find? (fun p => containsSub p.1 normKey || containsSub normKey p.1) with
      | some p => { item with designImage := some p.2 }
      | none => item

/-- `processVisuals`: crop the catalog, build the lookup maps from the
processed catalog, link the takeoff items. -/
def processVisuals (dims : List (ℚ × ℚ)) (result : AnalysisResult) :
    AnalysisResult :=
  let catalog2 := result.catalog.map (processCatalogEntry dims)
  let maps := buildMaps catalog2
  ⟨result.takeoff.map (linkItem maps.1 maps.2), catalog2⟩

-- ===== `handleAddToProject` catalog merge (src/App.tsx, lines 374-395) =====

/-- One upsert of the new-catalog loop: preserve the existing design image
when the incoming entry has none, then `set`. -/
def upsertNew (m : List (List Char × SignTypeDefinition)) (c : SignTypeDefinition) :
    List (List Char × SignTypeDefinition) :=
  let key := toLowerL c.typeCode
  let c2 := match lookupAssoc m key with
    | some e =>
      if e.designImage.isSome ∧ c.designImage.isNone then
        { c with designImage := e.designImage }
      else c
    | none => c
  setAssoc m key c2

/-- The `setMasterCatalog` updater of `handleAddToProject`: seed a map from
the previous catalog (plain overwrite), upsert the new entries, return the
values in map iteration order. -/
def mergeCatalog (prevCatalog newCatalog : List SignTypeDefinition) :
    List SignTypeDefinition :=
  let m0 := prevCatalog.foldl (fun m c => setAssoc m (toLowerL c.typeCode) c) []
  (newCatalog.foldl upsertNew m0).map Prod.snd

-- ===== `identifyKeyPages` post-processing (src/unnamed/part_003, 256-305) =====

/-- A key sheet as returned by the model, before page resolution. -/
structure IdentifiedSheet where
  sheetNumber : List Char
  description : List Char
  category : List Char
deriving DecidableEq, Repr

/-- `KeyPage` of the types module. -/
structure KeyPage where
  sheetNumber : List Char
  description : List Char
  category : List Char
  pageIndex : Nat
deriving DecidableEq, Repr

/-- `replace(/[\s\-\.]/g, '')`: the sheet-number / page-text normalization. -/
def normalizeSheetText (cs : List Char) : List Char :=
  cs.filter (fun c => !(isWsChar c || c = '-' || c = '.'))

/-- All page indices whose normalized text contains the normalized sheet
number (lines 269-275). -/
def sheetMatches (searchStr : List Char) (pageTexts : List (List Char)) :
    List Nat :=
  (List.range pageTexts.length).filter
    (fun i => containsSub searchStr (normalizeSheetText (pageTexts.getD i [])))

/-- The resolution loop of `identifyKeyPages` (lines 258-305): skip an empty
normalized sheet number, prefer the last match, drop a sheet whose last match
is still inside the scanned table-of-contents range of a longer document. -/
def resolveKeyPages (identified : List IdentifiedSheet)
    (pageTexts : List (List Char)) (tocScanRange : Nat) : List KeyPage :=
  identified.foldl (fun acc item =>
    let searchStr := normalizeSheetText item.sheetNumber
    if searchStr.isEmpty then acc
    else
      match (sheetMatches searchStr pageTexts).getLast? with
      | none => acc
      | some lastMatch =>
        if lastMatch < tocScanRange ∧ pageTexts.length > tocScanRange then acc
        else acc ++ [⟨item.sheetNumber, item.description, item.category, lastMatch⟩]) []

-- ===== `analyzeDrawing` retry loop (src/unnamed/part_003, lines 313-535) =====

/-- One part of a model response candidate. -/
structure GenPart where
  text : Option (List Char)
deriving DecidableEq, Repr

/-- One candidate of a model response. -/
structure GenCandidate where
  parts : Option (List GenPart)
  finishReason : Option (List Char)
deriving DecidableEq, Repr

/-- A model response: the `.text` getter value and the candidate list (an
absent `candidates` field is the empty list — both fail the
`candidates && candidates.length > 0` guard). -/
structure GenResponse where
  text : Option (List Char)
  candidates : List GenCandidate
deriving DecidableEq, Repr

/-- JS falsiness of a possibly-undefined string: `undefined` or `""`. -/
def optFalsy (t : Option (List Char)) : Bool :=
  match t with
  | none => true
  | some s => s.isEmpty

/-- The manual text fallback (lines 458-463): when `.text` is falsy and a
candidate exists, join the candidate's part texts (`p.text || ""`). -/
def fallbackText (r : GenResponse) : Option (List Char) :=
  if optFalsy r.text then
    match r.candidates with
    | c :: _ =>
      match c.parts with
      | some ps => some (ps.map (fun p => p.text.getD [])).flatten
      | none => r.text
    | [] => r.text
  else r.text

/-- The message of the error thrown when the returned text is empty after
all fallbacks (line 477). -/
def noDataMsg : List Char := str ("No data returned from Gemini.")

/-- Text extraction of one attempt (lines 455-477): fallback join, the
finish-reason checks, and the final no-data check. Returns the text, or the
thrown error's message. -/
def extractText (r : GenResponse) : Except (List Char) (List Char) :=
  let text1 := fallbackText r
  let final : Except (List Char) (List Char) :=
    if optFalsy text1 then .error noDataMsg else .ok (text1.getD [])
  match r.candidates with
  | c :: _ =>
    if optFalsy text1 then
      match c.finishReason with
      | some fr =>
        if fr = str ("MAX_TOKENS") then
          .error (str ("Analysis stopped: MAX_TOKENS reached and no text generated."))
        else if ¬ fr.isEmpty ∧ fr ≠ str ("STOP") then
          .error ((str ("Analysis stopped: ")) ++ fr)
        else final
      | none => final
    else final
  | [] => final

/-- The message of the cancellation error. -/
def cancelMsg : List Char := str ("Analysis cancelled by user.")

/-- The environment of one loop iteration of `analyzeDrawing`: the abort
signal sampled at each of its checkpoints, what `generateContent` does
(throw, or return a response), and the outcome of the
`JSON.parse(cleanAndRepairJson(text))` + defensive-array stage (an
`.error m` models the thrown `JSON Parse Failed: ...` error). The
final value type is abstract (`α`). -/
structure AttemptEnv (α : Type) where
  abortedAtLoopTop : Bool
  call : Except (List Char) GenResponse
  abortedAfterCall : Bool
  parsed : Except (List Char) α
  abortedBeforeProcess : Bool
  abortedBeforeDelay : Bool

/-- One iteration of the `while` body up to `return result` (lines 430-499):
abort checkpoints, the network call, text extraction, parsing, and the
pre-post-processing abort check. -/
def runAttempt {α : Type} (e : AttemptEnv α) : Except (List Char) α :=
  if e.abortedAtLoopTop then .error cancelMsg
  else
    match e.call with
    | .error m => .error m
    | .ok resp =>
      if e.abortedAfterCall then .error cancelMsg
      else
        match extractText resp with
        | .error m => .error m
        | .ok _ =>
          match e.parsed with
          | .error m => .error m
          | .ok r =>
            if e.abortedBeforeProcess then .error cancelMsg
            else .ok r

/-- The retriable-signature test of the catch block (lines 511-518). -/
def isRetriableMsg (m : List Char) : Bool :=
  containsSub (str ("500")) m || containsSub (str ("503")) m ||
  containsSub (str ("Internal error")) m || containsSub (str ("INTERNAL")) m ||
  containsSub (str ("Overloaded")) m || containsSub (str ("No data returned")) m

/-- The cancellation test of the catch block (line 502). -/
def isCancelMsg (m : List Char) : Bool := containsSub (str ("cancelled by user")) m

/-- The message thrown when the loop exits by its condition (line 534;
unreachable from a fresh call). -/
def exhaustMsg (lastErr : Option (List Char)) : List Char :=
  (str ("Analysis failed after 3 attempts. Last error: ")) ++
    (match lastErr with | some m => m | none => str ("undefined"))

/-- The observable trace of one `analyzeDrawing` run: the returned value or
the thrown error's message, the number of `generateContent` invocations, and
the backoff delays (ms) actually awaited, in order. -/
structure RunTrace (α : Type) where
  outcome : Except (List Char) α
  calls : Nat
  delays : List Nat
deriving Repr

/-- The `while (attempts < maxAttempts)` loop with `maxAttempts = 3`.
`envs k` is the environment of the iteration whose `attempts` counter is `k`
(the counter only advances on a retried failure). The fuel argument only
bounds the recursion; `3` is always enough. -/
def analyzeLoop {α : Type} (envs : Nat → AttemptEnv α) :
    Nat → Nat → Option (List Char) → RunTrace α
  | 0, _, lastErr => ⟨.error (exhaustMsg lastErr), 0, []⟩
  | fuel + 1, attempts, lastErr =>
    if attempts < 3 then
      let e := envs attempts
      let c : Nat := if e.abortedAtLoopTop then 0 else 1
      match runAttempt e with
      | .ok r => ⟨.ok r, c, []⟩
      | .error m =>
        if isCancelMsg m then ⟨.error m, c, []⟩
        else if isRetriableMsg m ∧ attempts + 1 < 3 then
          if e.abortedBeforeDelay then ⟨.error cancelMsg, c, []⟩
          else
            let w := 1000 * 2 ^ (attempts + 1)
            let rest := analyzeLoop envs fuel (attempts + 1) (some m)
            ⟨rest.outcome, c + rest.calls, w :: rest.delays⟩
        else ⟨.error ((str ("Analysis failed: ")) ++ m), c, []⟩
    else ⟨.error (exhaustMsg lastErr), 0, []⟩

/-- A whole `analyzeDrawing` run (the loop entered with `attempts = 0`). -/
def analyzeDrawing {α : Type} (envs : Nat → AttemptEnv α) : RunTrace α :=
  analyzeLoop envs 3 0 none

-- ===== `cleanAndRepairJson` (src/unnamed/part_003, lines 541-616) =====

/-- The backquote character (code fences). -/
def backquote : Char := Char.ofNat 96

/-- JS `String.prototype.trim` on the char-list model. -/
def jsTrim (cs : List Char) : List Char :=
  ((cs.dropWhile isWsChar).reverse.dropWhile isWsChar).reverse

/-- `replace(/^` ``` `json\s*/, "")`: strip a leading ```` ```json ````
fence together with the whitespace after it. -/
def stripFenceJson (cs : List Char) : List Char :=
  if startsWithL ([backquote, backquote, backquote] ++ (str ("json"))) cs then
    (cs.drop 7).dropWhile isWsChar
  else cs

/-- `replace(/^` ``` `\s*/, "")`: strip a leading ```` ``` ```` fence
together with the whitespace after it. -/
def stripFenceBare (cs : List Char) : List Char :=
  if startsWithL [backquote, backquote, backquote] cs then
    (cs.drop 3).dropWhile isWsChar
  else cs

/-- `replace(/\s*` ``` `$/, "")`: strip a trailing ```` ``` ```` fence
together with the whitespace before it. -/
def stripFenceEnd (cs : List Char) : List Char :=
  if startsWithL [backquote, backquote, backquote] cs.reverse then
    ((cs.reverse.drop 3).dropWhile isWsChar).reverse
  else cs

/-- JS `indexOf` for one character (`none` for `-1`). -/
def idxOfChar (c : Char) : List Char → Option Nat
  | [] => none
  | a :: rest => if a = c then some 0 else (idxOfChar c rest).map (· + 1)

/-- JS `lastIndexOf` for one character (`none` for `-1`). -/
def lastIdxOfChar (c : Char) (cs : List Char) : Option Nat :=
  match idxOfChar c cs.reverse with
  | none => none
  | some j => some (cs.length - 1 - j)

/-- JS `String.prototype.substring` (argument order swapped when needed,
indices clamped). -/
def jsSubstring (cs : List Char) (a b : Nat) : List Char :=
  (cs.take (max a b)).drop (min a b)

/-- The global left-to-right scan of `replace(/CL\s*OP/g, "CL, OP")` for a
closer/opener pair, fuelled (the fuel bounds the recursion; `cs.length` is
always enough since every step consumes at least one character). A match
consumes the closer, the whitespace and the opener, emits the separator and
rescans after the opener, as the regex engine does. -/
def replacePairFuel (op cl : Char) : Nat → List Char → List Char
  | _, [] => []
  | 0, cs => cs
  | fuel + 1, a :: rest =>
    if a = cl then
      match rest.dropWhile isWsChar with
      | b :: tail =>
        if b = op then cl :: ',' :: ' ' :: op :: replacePairFuel op cl fuel tail
        else cl :: replacePairFuel op cl fuel rest
      | [] => cl :: replacePairFuel op cl fuel rest
    else a :: replacePairFuel op cl fuel rest

/-- `replace(/}\s*{/g, "}, {")` (the braces are escaped in the source
regex). -/
def replaceBraceRun (cs : List Char) : List Char :=
  replacePairFuel '{' '}' cs.length cs

/-- `replace(/]\s*\[/g, "], [")`. -/
def replaceBracketRun (cs : List Char) : List Char :=
  replacePairFuel '[' ']' cs.length cs

/-- Step 5: drop one trailing comma. -/
def dropTrailingComma (cs : List Char) : List Char :=
  match cs.reverse with
  | a :: rest => if a = ',' then rest.reverse else cs
  | [] => cs

/-- The state of the step-6 balancing scan: the stack of expected closers
(top at the head; the source pushes/pops at the array end), the
inside-a-string flag and the escape flag. -/
structure ScanSt where
  stack : List Char
  inString : Bool
  escaped : Bool
deriving DecidableEq, Repr

/-- One character of the balancing scan (lines 576-603). -/
def scanStep (st : ScanSt) (c : Char) : ScanSt :=
  if st.inString then
    if c = '\\' ∧ st.escaped = false then { st with escaped := true }
    else if c = '"' ∧ st.escaped = false then { st with inString := false }
    else { st with escaped := false }
  else
    if c = '"' then { st with inString := true }
    else if c = '{' then { st with stack := '}' :: st.stack }
    else if c = '[' then { st with stack := ']' :: st.stack }
    else if c = '}' ∨ c = ']' then
      match st.stack with
      | top :: rest => if top = c then { st with stack := rest } else st
      | [] => st
    else st

/-- The balancing scan over a whole text. -/
def scanChars (st : ScanSt) (cs : List Char) : ScanSt := cs.foldl scanStep st

/-- Steps 6-8: run the scan, close an open string, append the pending
closers in LIFO order. -/
def repairTail (cs : List Char) : List Char :=
  let st := scanChars ⟨[], false, false⟩ cs
  (if st.inString then cs ++ ['"'] else cs) ++ st.stack

/-- `cleanAndRepairJson`: trim, strip code fences, cut from the first `{` to
just after the last closer, fix missing separators, drop a trailing comma,
and balance. -/
def cleanAndRepairJson (cs0 : List Char) : List Char :=
  let t2 := stripFenceEnd (stripFenceBare (stripFenceJson (jsTrim cs0)))
  match idxOfChar '{' t2 with
  | none => str ("\x7b\x7d")
  | some firstOpen =>
    let lastBrace : Int := match lastIdxOfChar '}' t2 with
      | none => -1
      | some i => (i : Int)
    let lastBracket : Int := match lastIdxOfChar ']' t2 with
      | none => -1
      | some i => (i : Int)
    let cutoffI : Int := max lastBrace lastBracket
    let cutoff : Nat := if cutoffI = -1 then t2.length else (cutoffI + 1).toNat
    let clean1 := jsSubstring t2 firstOpen cutoff
    let clean2 := jsTrim (replaceBracketRun (replaceBraceRun clean1))
    repairTail (dropTrailingComma clean2)

-- ===== JSON syntactic validity (model of `JSON.parse` acceptance) =====

/-- JSON insignificant whitespace. -/
def isJsonWs (c : Char) : Bool := c = ' ' || c = '\t' || c = '\n' || c = '\r'

/-- Skip JSON whitespace. -/
def skipJsonWs (cs : List Char) : List Char := cs.dropWhile isJsonWs

/-- A hexadecimal digit. -/
def isHexChar (c : Char) : Bool :=
  c.isDigit || ('a' ≤ c && c ≤ 'f') || ('A' ≤ c && c ≤ 'F')

/-- Remainder after a JSON string body (the opening quote already
consumed), including its closing quote; `none` when ill-formed. -/
def jsonStrRest : List Char → Option (List Char)
  | [] => none
  | c :: rest =>
    if c = '"' then some rest
    else if c = '\\' then
      match rest with
      | e :: rest2 =>
        if e = 'u' then
          match rest2 with
          | h1 :: h2 :: h3 :: h4 :: rest3 =>
            if isHexChar h1 ∧ isHexChar h2 ∧ isHexChar h3 ∧ isHexChar h4 then
              jsonStrRest rest3
            else none
          | _ => none
        else if e = '"' ∨ e = '\\' ∨ e = '/' ∨ e = 'b' ∨ e = 'f' ∨ e = 'n' ∨
            e = 'r' ∨ e = 't' then jsonStrRest rest2
        else none
      | [] => none
    else if c.toNat < 32 then none
    else jsonStrRest rest

/-- Remainder after a JSON integer part: `0`, or a nonzero digit followed by
digits. -/
def jsonIntRest : List Char → Option (List Char)
  | [] => none
  | c :: rest =>
    if c = '0' then some rest
    else if c.isDigit then some (rest.dropWhile Char.isDigit)
    else none

/-- Remainder after an optional JSON fraction part. -/
def jsonFracRest : List Char → Option (List Char)
  | [] => some []
  | c :: rest =>
    if c = '.' then
      match rest with
      | d :: _ => if d.isDigit then some (rest.dropWhile Char.isDigit) else none
      | [] => none
    else some (c :: rest)

/-- Remainder after an optional JSON exponent part. -/
def jsonExpRest : List Char → Option (List Char)
  | [] => some []
  | c :: rest =>
    if c = 'e' ∨ c = 'E' then
      match rest with
      | s :: r2 =>
        if s = '+' ∨ s = '-' then
          match r2 with
          | d :: _ => if d.isDigit then some (r2.dropWhile Char.isDigit) else none
          | [] => none
        else if s.isDigit then some (rest.dropWhile Char.isDigit) else none
      | [] => none
    else some (c :: rest)

/-- Remainder after a JSON number. -/
def jsonNumRest (cs : List Char) : Option (List Char) :=
  let cs1 := if cs.head? = some '-' then cs.tail else cs
  match jsonIntRest cs1 with
  | none => none
  | some r1 =>
    match jsonFracRest r1 with
    | none => none
    | some r2 => jsonExpRest r2

mutual

/-- Remainder after one JSON value (no leading whitespace); fuelled. -/
def jsonValRest : Nat → List Char → Option (List Char)
  | 0, _ => none
  | fuel + 1, cs =>
    match cs with
    | [] => none
    | c :: rest =>
      if c = '"' then jsonStrRest rest
      else if c = '{' then
        match skipJsonWs rest with
        | c2 :: r => if c2 = '}' then some r else jsonObjMemb fuel (c2 :: r)
        | [] => jsonObjMemb fuel []
      else if c = '[' then
        match skipJsonWs rest with
        | c2 :: r => if c2 = ']' then some r else jsonArrElem fuel (c2 :: r)
        | [] => jsonArrElem fuel []
      else if c = 't' then
        if startsWithL (str ("rue")) rest then some (rest.drop 3) else none
      else if c = 'f' then
        if startsWithL (str ("alse")) rest then some (rest.drop 4) else none
      else if c = 'n' then
        if startsWithL (str ("ull")) rest then some (rest.drop 3) else none
      else if c = '-' ∨ c.isDigit then jsonNumRest (c :: rest)
      else none

/-- Remainder after one or more `"key": value` members and the closing
brace. -/
def jsonObjMemb : Nat → List Char → Option (List Char)
  | 0, _ => none
  | fuel + 1, cs =>
    match cs with
    | [] => none
    | c :: rest =>
      if c = '"' then
        match jsonStrRest rest with
        | none => none
        | some r1 =>
          match skipJsonWs r1 with
          | c2 :: r2 =>
            if c2 = ':' then
              match jsonValRest fuel (skipJsonWs r2) with
              | none => none
              | some r3 =>
                match skipJsonWs r3 with
                | c3 :: r4 =>
                  if c3 = ',' then jsonObjMemb fuel (skipJsonWs r4)
                  else if c3 = '}' then some r4
                  else none
                | [] => none
            else none
          | [] => none
      else none

/-- Remainder after one or more array elements and the closing bracket. -/
def jsonArrElem : Nat → List Char → Option (List Char)
  | 0, _ => none
  | fuel + 1, cs =>
    match jsonValRest fuel cs with
    | none => none
    | some r1 =>
      match skipJsonWs r1 with
      | c2 :: r2 =>
        if c2 = ',' then jsonArrElem fuel (skipJsonWs r2)
        else if c2 = ']' then some r2
        else none
      | [] => none

end

/-- Syntactic JSON validity: the whole text is one JSON value surrounded by
whitespace. The fuel `2 * length + 2` is enough for any accepting run, since
at most two recursion layers are entered per consumed character. -/
def jsonValid (cs : List Char) : Bool :=
  match jsonValRest (2 * cs.length + 2) (skipJsonWs cs) with
  | some rest => (skipJsonWs rest).isEmpty
  | none => false

-- ===== Auxiliary definitions used by the theorems =====

/-- A signage item with its design image removed (for frame statements). -/
def eraseItemImg (it : SignageItem) : SignageItem := { it with designImage := none }

/-- A type definition with its design image removed (for frame statements). -/
def eraseDefImg (t : SignTypeDefinition) : SignTypeDefinition :=
  { t with designImage := none }

/-- A concrete run environment in which every attempt's call returns a
response with a falsy `.text` and no candidates (empty text after all
fallbacks). -/
def noDataEnvs : Nat → AttemptEnv Unit :=
  fun _ => ⟨false, .ok ⟨some [], []⟩, false, .error [], false, false⟩

/-- A concrete run environment in which every attempt's call throws a
transient `503`-class error. -/
def overloadEnvs : Nat → AttemptEnv Unit :=
  fun _ => ⟨false, .error (str ("503 Service Unavailable")), false, .error [], false, false⟩

/-- A concrete catalog entry with a full-page visual definition whose
description, not its type code, equals an item's sign type. -/
def descEntry : SignTypeDefinition :=
  ⟨str ("X1"), str ("Room ID"), str ("misc"), none, none, none, none,
    some [0, 0, 1000, 1000], some 0, none⟩

/-- The one-entry catalog around `descEntry`. -/
def descCatalog : List SignTypeDefinition := [descEntry]

/-- One loaded 1000-by-1000 source image. -/
def descDims : List (ℚ × ℚ) := [(1000, 1000)]

/-- A concrete inventory item whose sign type equals the catalog entry's
description. -/
def descItem : SignageItem :=
  ⟨str ("A-101"), none, str ("101"), str ("Office"), str ("misc"), false, 1,
    str (""), str (""), str (""), str (""), none, none, none⟩

/-- The extraction result pairing `descItem` with `descCatalog`. -/
def descResult : AnalysisResult := ⟨[descItem], descCatalog⟩

/-- A concrete catalog entry `A-1` with a full-page visual definition. -/
def a1Entry : SignTypeDefinition :=
  ⟨str ("A-1"), str ("Room ID"), str (""), none, none, none, none,
    some [0, 0, 1000, 1000], some 0, none⟩

/-- A concrete inventory item typed `Sign A1`. -/
def a1Item : SignageItem :=
  ⟨str ("A-101"), none, str ("102"), str ("Conf Rm"), str ("Sign A1"), false, 1,
    str (""), str (""), str (""), str (""), none, none, none⟩

/-- The extraction result pairing `a1Item` with the `A-1` catalog. -/
def a1Result : AnalysisResult := ⟨[a1Item], [a1Entry]⟩

/-- A sheet label that normalizes to the empty string. -/
def blankSheet : IdentifiedSheet := ⟨str ("- -"), str ("Signage"), str ("General")⟩

/-- Four pages of text for the resolver counterexample. -/
def fourPages : List (List Char) :=
  [str ("alpha"), str ("beta"), str ("gamma"), str ("delta")]

-- ===== Specification-side definitions (from the claims' words) =====

/-- One upsert as the specification words it: the later write wins for every
field, except that an existing design image is preserved when the incoming
entry has none. -/
def specUpsert (old : Option SignTypeDefinition) (c : SignTypeDefinition) :
    SignTypeDefinition :=
  match old with
  | some e =>
    if e.designImage.isSome ∧ c.designImage.isNone then
      { c with designImage := e.designImage }
    else c
  | none => c

/-- Iterated specification upserts over the incoming entries for one key. -/
def upsertChain (init : Option SignTypeDefinition)
    (cs : List SignTypeDefinition) : Option SignTypeDefinition :=
  cs.foldl (fun acc c => some (specUpsert acc c)) init

/-- The key registrations the exact lookup receives, in catalog order: for
every entry carrying a design image, its lowercased type code and (when
non-empty) its lowercased description. -/
def exactRegs (catalog : List SignTypeDefinition) :
    List (List Char × DesignImg) :=
  catalog.flatMap (fun c =>
    match c.designImage with
    | some img =>
      (toLowerL c.typeCode, img) ::
        (if c.description.isEmpty then [] else [(toLowerL c.description, img)])
    | none => [])

/-- The key registrations the fuzzy lookup receives, in catalog order. -/
def fuzzyRegs (catalog : List SignTypeDefinition) :
    List (List Char × DesignImg) :=
  catalog.flatMap (fun c =>
    match c.designImage with
    | some img =>
      if c.typeCode.isEmpty then [] else [(normalizeKey c.typeCode, img)]
    | none => [])

/-- The value a key holds after all registrations: the value of its last
registration. -/
def lastVal (regs : List (List Char × DesignImg)) (k : List Char) :
    Option DesignImg :=
  ((regs.filter (fun p => p.1 == k)).getLast?).map Prod.snd

/-- The design image the specification's three-stage linking procedure
(exact case-insensitive key, then normalized key, then substring match in
either direction, first registered key in catalog order winning) assigns to
a sign type string. -/
def specLinkImage (catalog : List SignTypeDefinition) (s : List Char) :
    Option DesignImg :=
  match lastVal (exactRegs catalog) (toLowerL s) with
  | some img => some img
  | none =>
    let nk := normalizeKey s
    match lastVal (fuzzyRegs catalog) nk with
    | some img => some img
    | none =>
      match (fuzzyRegs catalog).find?
          (fun p => containsSub p.1 nk || containsSub nk p.1) with
      | some p => lastVal (fuzzyRegs catalog) p.1
      | none => none

/-- The specification's per-sheet page resolution: collect every matching
page index, prefer the last (= the largest, indices being scanned in
document order), drop the sheet when its normalized label is empty, when
there is no match, or when the guard (last match still inside the scanned
table-of-contents range of a longer document) fires. -/
def specResolveSheet (pageTexts : List (List Char)) (tocScanRange : Nat)
    (item : IdentifiedSheet) : Option KeyPage :=
  let s := normalizeSheetText item.sheetNumber
  if s.isEmpty then none
  else
    match ((List.range pageTexts.length).filter
        (fun i => containsSub s (normalizeSheetText (pageTexts.getD i [])))).max? with
    | none => none
    | some lastMatch =>
      if lastMatch < tocScanRange ∧ pageTexts.length > tocScanRange then none
      else some ⟨item.sheetNumber, item.description, item.category, lastMatch⟩

/-- The key sheet `A-101` of the specification's resolver example. -/
def a101Sheet : IdentifiedSheet :=
  ⟨str ("A-101"), str ("Signage Plan"), str ("Floor Plan")⟩

/-- A 50-page document whose only `A-101` occurrence is on page 0 (inside
the 3-page table-of-contents scan range). -/
def tocOnlyTexts : List (List Char) :=
  (List.replicate 50 (str (""))).set 0 (str ("Sheet Index: A-101 Signage Plan"))

/-- The same document with an additional `A-101` occurrence on page 37. -/
def tocAndBodyTexts : List (List Char) :=
  tocOnlyTexts.set 37 (str ("A-101 SIGNAGE PLAN - LEVEL 1"))

/-- A closer immediately followed (up to whitespace) by an opener occurs
somewhere in the text — the pattern the missing-comma replacement
rewrites. -/
def hasPairAdjacency (op cl : Char) : List Char → Bool
  | [] => false
  | c :: rest =>
    ((c == cl) && (match rest.dropWhile isWsChar with
      | b :: _ => b == op
      | [] => false)) || hasPairAdjacency op cl rest

/-- A text segment that the balancing scan passes through without changing
its state, whatever the pending closer stack (a balanced segment read
outside any string). -/
def NeutralSeg (pre : List Char) : Prop :=
  ∀ s : List Char, scanChars ⟨s, false, false⟩ pre = ⟨s, false, false⟩

/-- A text segment that closes the string the scan is inside (a string body
up to and including its closing quote). -/
def StrSeg (pre : List Char) : Prop :=
  ∀ s : List Char, scanChars ⟨s, true, false⟩ pre = ⟨s, false, false⟩

/-- A text segment that pops one pending closer (a member/element list up
to and including the closing brace or bracket). -/
def CloseSeg (cl : Char) (pre : List Char) : Prop :=
  ∀ s : List Char, scanChars ⟨cl :: s, false, false⟩ pre = ⟨s, false, false⟩

-- ===== Theorems =====

set_option maxRecDepth 4096

/-- Helper: linking never changes anything but the design image. -/
theorem eraseItemImg_linkItem (dm fk : List (List Char × DesignImg))
    (it : SignageItem) : eraseItemImg (linkItem dm fk it) = eraseItemImg it := by
  simp only [linkItem]
  repeat' split
  all_goals rfl

/-- Helper: the catalog pass never changes anything but the design image. -/
theorem eraseDefImg_processCatalogEntry (dims : List (ℚ × ℚ))
    (t : SignTypeDefinition) :
    eraseDefImg (processCatalogEntry dims t) = eraseDefImg t := by
  simp only [processCatalogEntry]
  repeat' split
  all_goals rfl

/-- C10: `processVisuals` preserves the length and order of both the takeoff
list and the catalog list, and changes no field other than `designImage` of
any element. -/
theorem processVisuals_frame_effect (dims : List (ℚ × ℚ)) (result : AnalysisResult) :
    (processVisuals dims result).takeoff.length = result.takeoff.length ∧
    (processVisuals dims result).catalog.length = result.catalog.length ∧
    (∀ n : Nat, ((processVisuals dims result).takeoff[n]?).map eraseItemImg
        = (result.takeoff[n]?).map eraseItemImg) ∧
    (∀ n : Nat, ((processVisuals dims result).catalog[n]?).map eraseDefImg
        = (result.catalog[n]?).map eraseDefImg) := by
  refine ⟨by simp [processVisuals], by simp [processVisuals], ?_, ?_⟩
  · intro n
    simp only [processVisuals, List.getElem?_map]
    cases result.takeoff[n]? with
    | none => rfl
    | some it => simp [eraseItemImg_linkItem]
  · intro n
    simp only [processVisuals, List.getElem?_map]
    cases result.catalog[n]? with
    | none => rfl
    | some t => simp [eraseDefImg_processCatalogEntry]

/-- C8: for every image and padding ratio, a degenerate box with
`xmin = xmax` — and more generally any box whose computed pixel width or
height is zero or negative — yields no image (the crop is discarded by the
sanity check; `cropImage` has no error path). -/
theorem cropImage_degenerate_none (i : CropInput)
    (h : i.xmin = i.xmax ∨ cropPixelW i ≤ 0 ∨ cropPixelH i ≤ 0) :
    cropImage i = none := by
  rcases h with h | h | h
  · have hw0 : cropPixelW0 i = 0 := by
      simp only [cropPixelW0, cropPixelX0, cropPadX, h]
      ring
    have hw : cropPixelW i ≤ 0 := by
      rw [cropPixelW, hw0]
      exact min_le_right _ _
    unfold cropImage
    rw [if_pos (Or.inl hw)]
  · unfold cropImage
    rw [if_pos (Or.inl h)]
  · unfold cropImage
    rw [if_pos (Or.inr h)]

/-- Witness for C8 at a concrete degenerate box. -/
theorem cropImage_degenerate_none_witness :
    cropImage ⟨640, 480, 100, 250, 900, 250, (1/10 : ℚ)⟩ = none :=
  cropImage_degenerate_none _ (Or.inl rfl)

/-- C9: whenever `cropImage` yields a rectangle, that rectangle has strictly
positive width and height, a non-negative origin, and lies entirely inside
the image; clamping keeps every read inside the image bounds. -/
theorem cropImage_within_bounds (i : CropInput) (r : CropRect)
    (hpad : 0 ≤ i.pad) (h : cropImage i = some r) :
    0 < r.w ∧ 0 < r.h ∧ 0 ≤ r.x ∧ 0 ≤ r.y ∧
      r.x + r.w ≤ i.imgW ∧ r.y + r.h ≤ i.imgH := by
  unfold cropImage at h
  by_cases hc : cropPixelW i ≤ 0 ∨ cropPixelH i ≤ 0
  · rw [if_pos hc] at h
    exact absurd h (by simp)
  · rw [if_neg hc] at h
    push_neg at hc
    obtain ⟨hw, hh⟩ := hc
    injection h with h
    subst h
    refine ⟨hw, hh, le_max_left _ _, le_max_left _ _, ?_, ?_⟩
    · have hmin : cropPixelW i ≤ i.imgW - cropPixelX i := min_le_left _ _
      simp only [CropRect.x, CropRect.w]
      linarith
    · have hmin : cropPixelH i ≤ i.imgH - cropPixelY i := min_le_left _ _
      simp only [CropRect.y, CropRect.h]
      linarith

/-- Witness for C9 at a concrete full-image box. -/
theorem cropImage_within_bounds_witness :
    cropImage ⟨1000, 800, 0, 0, 1000, 1000, 0⟩ = some ⟨0, 0, 1000, 800⟩ ∧
    (0 < (1000 : ℚ) ∧ 0 < (800 : ℚ) ∧ (0 : ℚ) ≤ 0 ∧ (0 : ℚ) ≤ 0 ∧
      (0 : ℚ) + 1000 ≤ 1000 ∧ (0 : ℚ) + 800 ≤ 800) := by
  have hcrop : cropImage ⟨1000, 800, 0, 0, 1000, 1000, 0⟩ = some ⟨0, 0, 1000, 800⟩ := by
    norm_num [cropImage, cropPixelW, cropPixelH, cropPixelX, cropPixelY, cropPixelW0,
      cropPixelH0, cropPixelX0, cropPixelY0, cropPadX, cropPadY, min_def, max_def]
  exact ⟨hcrop, cropImage_within_bounds _ _ (le_refl 0) hcrop⟩

/-- Helper: one loop iteration that fails with the cancellation message is
rethrown as-is: no delay, no further call. -/
theorem analyzeLoop_cancel_step {α : Type} (envs : Nat → AttemptEnv α)
    (fuel attempts : Nat) (lastErr : Option (List Char))
    (hlt : attempts < 3)
    (hrun : runAttempt (envs attempts) = .error cancelMsg) :
    analyzeLoop envs (fuel + 1) attempts lastErr =
      ⟨.error cancelMsg, if (envs attempts).abortedAtLoopTop then 0 else 1, []⟩ := by
  simp only [analyzeLoop]
  rw [if_pos hlt]
  simp only [hrun]
  rw [if_pos (by decide : isCancelMsg cancelMsg = true)]

/-- Helper: one loop iteration that fails with a retriable, non-cancel
message and may still retry delays and recurses. -/
theorem analyzeLoop_retry_step {α : Type} (envs : Nat → AttemptEnv α)
    (fuel attempts : Nat) (lastErr : Option (List Char)) (m : List Char)
    (hlt : attempts + 1 < 3)
    (hrun : runAttempt (envs attempts) = .error m)
    (hnc : isCancelMsg m = false)
    (hr : isRetriableMsg m = true)
    (hnd : (envs attempts).abortedBeforeDelay = false) :
    analyzeLoop envs (fuel + 1) attempts lastErr =
      ⟨(analyzeLoop envs fuel (attempts + 1) (some m)).outcome,
        (if (envs attempts).abortedAtLoopTop then 0 else 1) +
          (analyzeLoop envs fuel (attempts + 1) (some m)).calls,
        (1000 * 2 ^ (attempts + 1)) :: (analyzeLoop envs fuel (attempts + 1) (some m)).delays⟩ := by
  simp only [analyzeLoop]
  rw [if_pos (by omega : attempts < 3)]
  simp only [hrun, hnc, hr, hnd]
  simp [hlt]

/-- Helper: one loop iteration that fails non-retriably (or with retries
exhausted) surfaces `Analysis failed: ...` at once. -/
theorem analyzeLoop_fail_step {α : Type} (envs : Nat → AttemptEnv α)
    (fuel attempts : Nat) (lastErr : Option (List Char)) (m : List Char)
    (hlt : attempts < 3)
    (hrun : runAttempt (envs attempts) = .error m)
    (hnc : isCancelMsg m = false)
    (hnr : ¬ (isRetriableMsg m = true ∧ attempts + 1 < 3)) :
    analyzeLoop envs (fuel + 1) attempts lastErr =
      ⟨.error ((str ("Analysis failed: ")) ++ m),
        if (envs attempts).abortedAtLoopTop then 0 else 1, []⟩ := by
  simp only [analyzeLoop]
  rw [if_pos hlt]
  simp only [hrun, hnc]
  simp only [Bool.false_eq_true, if_false]
  rw [if_neg hnr]

/-- C4: when the cancellation signal is set at any of the three checkpoints
of the first attempt — before issuing the request, right after the network
call returns (the call having returned a response), or before
post-processing (the attempt having produced text and parsed) — the run
raises the distinguished cancelled outcome immediately: the retry loop is
bypassed, no backoff delay occurs, and at most the one already-issued call
is counted. -/
theorem analyzeDrawing_cancelled {α : Type} (envs : Nat → AttemptEnv α)
    (h : (envs 0).abortedAtLoopTop = true
      ∨ ((envs 0).abortedAtLoopTop = false ∧ (∃ resp, (envs 0).call = .ok resp)
          ∧ (envs 0).abortedAfterCall = true)
      ∨ ((envs 0).abortedAtLoopTop = false ∧ (envs 0).abortedAfterCall = false
          ∧ (∃ resp t, (envs 0).call = .ok resp ∧ extractText resp = .ok t)
          ∧ (∃ r, (envs 0).parsed = .ok r)
          ∧ (envs 0).abortedBeforeProcess = true)) :
    (analyzeDrawing envs).outcome = .error cancelMsg ∧
    (analyzeDrawing envs).delays = [] ∧
    (analyzeDrawing envs).calls ≤ 1 := by
  have hrun : runAttempt (envs 0) = .error cancelMsg := by
    rcases h with h1 | ⟨h1, ⟨resp, hcall⟩, h2⟩ | ⟨h1, h2, ⟨resp, t, hcall, htext⟩, ⟨r, hp⟩, h3⟩
    · simp [runAttempt, h1]
    · simp [runAttempt, h1, hcall, h2]
    · simp [runAttempt, h1, hcall, h2, htext, hp, h3]
  have h3eq : (3 : Nat) = 2 + 1 := rfl
  unfold analyzeDrawing
  rw [h3eq, analyzeLoop_cancel_step envs 2 0 none (by omega) hrun]
  refine ⟨rfl, rfl, ?_⟩
  cases (envs 0).abortedAtLoopTop <;> simp

/-- Witness for C4: the signal is set before the first request is issued. -/
theorem analyzeDrawing_cancelled_witness :
    (analyzeDrawing (fun _ =>
        (⟨true, .error [], false, .error [], false, false⟩ : AttemptEnv Unit))).outcome
      = .error cancelMsg ∧
    (analyzeDrawing (fun _ =>
        (⟨true, .error [], false, .error [], false, false⟩ : AttemptEnv Unit))).delays = [] ∧
    (analyzeDrawing (fun _ =>
        (⟨true, .error [], false, .error [], false, false⟩ : AttemptEnv Unit))).calls ≤ 1 :=
  analyzeDrawing_cancelled _ (Or.inl rfl)

/-- Helper: a response whose `.text` is falsy and which has no candidates
yields the `No data returned from Gemini.` error. -/
theorem extractText_empty (resp : GenResponse)
    (ht : optFalsy resp.text = true) (hc : resp.candidates = []) :
    extractText resp = .error noDataMsg := by
  simp [extractText, fallbackText, ht, hc]

/-- C2 counterexample: a run in which every attempt returns empty text is
retried with backoff — three calls and the delays 2s and 4s — before the
failure is surfaced, so the `no data returned` error is not terminal. -/
theorem analyzeDrawing_noData_counterexample :
    (analyzeDrawing noDataEnvs).calls = 3 ∧
    (analyzeDrawing noDataEnvs).delays = [2000, 4000] ∧
    (analyzeDrawing noDataEnvs).outcome
      = .error ((str ("Analysis failed: ")) ++ noDataMsg) :=
  ⟨rfl, rfl, rfl⟩

/-- C2 (amended): empty model text after all fallbacks raises
`No data returned from Gemini.`, whose message is in the retriable class;
the run therefore retries with backoff (2s, 4s) and only surfaces
`Analysis failed: No data returned from Gemini.` after three attempts. -/
theorem analyzeDrawing_noData_retried {α : Type} (envs : Nat → AttemptEnv α)
    (hab : ∀ k, k < 3 → (envs k).abortedAtLoopTop = false ∧
      (envs k).abortedAfterCall = false ∧ (envs k).abortedBeforeDelay = false)
    (hresp : ∀ k, k < 3 → ∃ resp, (envs k).call = .ok resp ∧
      optFalsy resp.text = true ∧ resp.candidates = []) :
    (analyzeDrawing envs).outcome = .error ((str ("Analysis failed: ")) ++ noDataMsg) ∧
    (analyzeDrawing envs).calls = 3 ∧
    (analyzeDrawing envs).delays = [2000, 4000] := by
  have hrun : ∀ k, k < 3 → runAttempt (envs k) = .error noDataMsg := by
    intro k hk
    obtain ⟨h1, h2, _⟩ := hab k hk
    obtain ⟨resp, hcall, ht, hc⟩ := hresp k hk
    have hext := extractText_empty resp ht hc
    simp [runAttempt, h1, hcall, h2, hext]
  have hnc : isCancelMsg noDataMsg = false := by decide
  have hr : isRetriableMsg noDataMsg = true := by decide
  have hfull : analyzeDrawing envs =
      ⟨.error ((str ("Analysis failed: ")) ++ noDataMsg), 3, [2000, 4000]⟩ := by
    unfold analyzeDrawing
    show analyzeLoop envs (2 + 1) 0 none = _
    rw [analyzeLoop_retry_step envs 2 0 none noDataMsg (by omega)
      (hrun 0 (by omega)) hnc hr (hab 0 (by omega)).2.2]
    have t2 : analyzeLoop envs 2 1 (some noDataMsg) =
        ⟨.error ((str ("Analysis failed: ")) ++ noDataMsg), 2, [4000]⟩ := by
      show analyzeLoop envs (1 + 1) 1 (some noDataMsg) = _
      rw [analyzeLoop_retry_step envs 1 1 (some noDataMsg) noDataMsg (by omega)
        (hrun 1 (by omega)) hnc hr (hab 1 (by omega)).2.2]
      have t1 : analyzeLoop envs 1 2 (some noDataMsg) =
          ⟨.error ((str ("Analysis failed: ")) ++ noDataMsg), 1, []⟩ := by
        show analyzeLoop envs (0 + 1) 2 (some noDataMsg) = _
        rw [analyzeLoop_fail_step envs 0 2 (some noDataMsg) noDataMsg (by omega)
          (hrun 2 (by omega)) hnc (fun hcon => absurd hcon.2 (by omega))]
        rw [(hab 2 (by omega)).1]
        norm_num
      rw [t1, (hab 1 (by omega)).1]
      norm_num
    rw [t2, (hab 0 (by omega)).1]
    norm_num
  rw [hfull]
  exact ⟨rfl, rfl, rfl⟩

/-- Witness for C2 (amended) at the concrete empty-text environment. -/
theorem analyzeDrawing_noData_retried_witness :
    (analyzeDrawing noDataEnvs).outcome
      = .error ((str ("Analysis failed: ")) ++ noDataMsg) ∧
    (analyzeDrawing noDataEnvs).calls = 3 ∧
    (analyzeDrawing noDataEnvs).delays = [2000, 4000] :=
  analyzeDrawing_noData_retried noDataEnvs
    (fun _ _ => ⟨rfl, rfl, rfl⟩)
    (fun _ _ => ⟨⟨some [], []⟩, rfl, rfl, rfl⟩)

/-- C3 counterexample: in a run whose three attempts all fail with a
`503`-class transient error, the backoff delays actually awaited are 2s and
4s — two retries, two delays; the 8s delay of the claimed (2s, 4s, 8s)
schedule never occurs. -/
theorem analyzeDrawing_backoff_counterexample :
    (analyzeDrawing overloadEnvs).calls = 3 ∧
    (analyzeDrawing overloadEnvs).delays = [2000, 4000] ∧
    (analyzeDrawing overloadEnvs).delays ≠ [2000, 4000, 8000] ∧
    ¬ (8000 ∈ (analyzeDrawing overloadEnvs).delays) :=
  ⟨rfl, rfl, by decide, by decide⟩

/-- C3 (amended): when every attempt fails with a retriable, non-cancel
message, the call is made 3 times (initial attempt plus at most 2 retries),
the backoff delays are 2s then 4s (doubling; 8s is never reached), and the
last underlying failure is surfaced as `Analysis failed: ...`. -/
theorem analyzeDrawing_transient_retry {α : Type} (envs : Nat → AttemptEnv α)
    (m : Nat → List Char)
    (hab : ∀ k, k < 3 → (envs k).abortedAtLoopTop = false ∧
      (envs k).abortedBeforeDelay = false)
    (hm : ∀ k, k < 3 → runAttempt (envs k) = .error (m k))
    (hr : ∀ k, k < 3 → isRetriableMsg (m k) = true ∧ isCancelMsg (m k) = false) :
    (analyzeDrawing envs).calls = 3 ∧
    (analyzeDrawing envs).delays = [2000, 4000] ∧
    (analyzeDrawing envs).outcome = .error ((str ("Analysis failed: ")) ++ m 2) := by
  have hfull : analyzeDrawing envs =
      ⟨.error ((str ("Analysis failed: ")) ++ m 2), 3, [2000, 4000]⟩ := by
    unfold analyzeDrawing
    show analyzeLoop envs (2 + 1) 0 none = _
    rw [analyzeLoop_retry_step envs 2 0 none (m 0) (by omega)
      (hm 0 (by omega)) (hr 0 (by omega)).2 (hr 0 (by omega)).1 (hab 0 (by omega)).2]
    have t2 : analyzeLoop envs 2 1 (some (m 0)) =
        ⟨.error ((str ("Analysis failed: ")) ++ m 2), 2, [4000]⟩ := by
      show analyzeLoop envs (1 + 1) 1 (some (m 0)) = _
      rw [analyzeLoop_retry_step envs 1 1 (some (m 0)) (m 1) (by omega)
        (hm 1 (by omega)) (hr 1 (by omega)).2 (hr 1 (by omega)).1 (hab 1 (by omega)).2]
      have t1 : analyzeLoop envs 1 2 (some (m 1)) =
          ⟨.error ((str ("Analysis failed: ")) ++ m 2), 1, []⟩ := by
        show analyzeLoop envs (0 + 1) 2 (some (m 1)) = _
        rw [analyzeLoop_fail_step envs 0 2 (some (m 1)) (m 2) (by omega)
          (hm 2 (by omega)) (hr 2 (by omega)).2 (fun hcon => absurd hcon.2 (by omega))]
        rw [(hab 2 (by omega)).1]
        norm_num
      rw [t1, (hab 1 (by omega)).1]
      norm_num
    rw [t2, (hab 0 (by omega)).1]
    norm_num
  rw [hfull]
  exact ⟨rfl, rfl, rfl⟩

/-- Witness for C3 (amended) at the concrete all-503 environment. -/
theorem analyzeDrawing_transient_retry_witness :
    (analyzeDrawing overloadEnvs).calls = 3 ∧
    (analyzeDrawing overloadEnvs).delays = [2000, 4000] ∧
    (analyzeDrawing overloadEnvs).outcome
      = .error ((str ("Analysis failed: ")) ++ (str ("503 Service Unavailable"))) :=
  by
  have h1 : isRetriableMsg (str ("503 Service Unavailable")) = true := by decide
  have h2 : isCancelMsg (str ("503 Service Unavailable")) = false := by decide
  exact analyzeDrawing_transient_retry overloadEnvs
    (fun _ => str ("503 Service Unavailable"))
    (fun _ _ => ⟨rfl, rfl⟩) (fun _ _ => rfl) (fun _ _ => ⟨h1, h2⟩)

/-- Helper: lookup after a `set`. -/
theorem lookup_setAssoc {V : Type} (m : List (List Char × V)) (k k' : List Char)
    (v : V) :
    lookupAssoc (setAssoc m k v) k' = if k' = k then some v else lookupAssoc m k' := by
  induction m with
  | nil =>
    simp only [setAssoc, lookupAssoc]
    by_cases h : k' = k
    · rw [if_pos h.symm, if_pos h]
    · rw [if_neg (fun hh => h hh.symm), if_neg h]
  | cons p rest ih =>
    obtain ⟨k0, v0⟩ := p
    simp only [setAssoc]
    by_cases h0 : k0 = k
    · subst h0
      rw [if_pos rfl]
      simp only [lookupAssoc]
      by_cases h : k0 = k'
      · rw [if_pos h, if_pos h.symm]
      · rw [if_neg h, if_neg (fun hh => h hh.symm), if_neg h]
    · rw [if_neg h0]
      simp only [lookupAssoc]
      rw [ih]
      by_cases h1 : k0 = k'
      · subst h1
        rw [if_pos rfl, if_neg h0, if_pos rfl]
      · rw [if_neg h1]
        by_cases h2 : k' = k
        · rw [if_pos h2, if_pos h2]
        · rw [if_neg h2, if_neg h2, if_neg h1]

/-- Helper: looking one key up after an upsert fold equals chaining the
adjustments of that key's elements, in order, onto the initial value. -/
theorem lookup_foldl_upsert {β V : Type} (keyOf : β → List Char)
    (adj : Option V → β → V) (l : List β) (m : List (List Char × V))
    (k : List Char) :
    lookupAssoc
        (l.foldl (fun mm b => setAssoc mm (keyOf b) (adj (lookupAssoc mm (keyOf b)) b)) m) k
      = (l.filter (fun b => keyOf b == k)).foldl
          (fun acc b => some (adj acc b)) (lookupAssoc m k) := by
  induction l generalizing m with
  | nil => rfl
  | cons b t ih =>
    simp only [List.foldl_cons, List.filter_cons]
    by_cases h : keyOf b = k
    · rw [if_pos (by simp [h] : ((keyOf b == k) = true))]
      simp only [List.foldl_cons]
      rw [ih, lookup_setAssoc, if_pos h.symm, h]
    · rw [if_neg (by simp [h] : ¬ ((keyOf b == k) = true))]
      rw [ih, lookup_setAssoc, if_neg (fun hh => h hh.symm)]

/-- Helper: a fold that keeps only the latest value ends at the last
element. -/
theorem foldl_some_eq_getLast {β V : Type} (f : β → V) (l : List β)
    (init : Option V) :
    l.foldl (fun _ b => some (f b)) init
      = match l.getLast? with
        | none => init
        | some b => some (f b) := by
  induction l generalizing init with
  | nil => rfl
  | cons b t ih =>
    simp only [List.foldl_cons]
    rw [ih]
    cases t with
    | nil => rfl
    | cons c u =>
      rw [List.getLast?_cons_cons]
      cases hgl : (c :: u).getLast? with
      | none => exact absurd hgl (by simp)
      | some x => rfl

/-- Helper: the latest-value fold from `none` is the last element. -/
theorem foldl_some_getLast_none {β : Type} (l : List β) :
    l.foldl (fun _ b => some b) none = l.getLast? := by
  rw [foldl_some_eq_getLast (fun b => b) l none]
  cases l.getLast? <;> rfl

/-- Helper: membership after a `set`. -/
theorem mem_setAssoc {V : Type} (m : List (List Char × V)) (k : List Char)
    (v : V) (p : List Char × V) (hp : p ∈ setAssoc m k v) :
    p ∈ m ∨ p = (k, v) := by
  induction m with
  | nil =>
    simp only [setAssoc, List.mem_singleton] at hp
    exact Or.inr hp
  | cons q rest ih =>
    obtain ⟨k0, v0⟩ := q
    simp only [setAssoc] at hp
    by_cases h0 : k0 = k
    · rw [if_pos h0] at hp
      rcases List.mem_cons.mp hp with hp1 | hp1
      · exact Or.inr hp1
      · exact Or.inl (List.mem_cons_of_mem _ hp1)
    · rw [if_neg h0] at hp
      rcases List.mem_cons.mp hp with hp1 | hp1
      · exact Or.inl (by simp [hp1])
      · rcases ih hp1 with hm | he
        · exact Or.inl (List.mem_cons_of_mem _ hm)
        · exact Or.inr he

/-- Helper: the key list after a `set`: unchanged when the key is present,
extended by the key otherwise. -/
theorem keys_setAssoc {V : Type} (m : List (List Char × V)) (k : List Char)
    (v : V) :
    (setAssoc m k v).map Prod.fst =
      if (lookupAssoc m k).isSome then m.map Prod.fst
      else m.map Prod.fst ++ [k] := by
  induction m with
  | nil => simp [setAssoc, lookupAssoc]
  | cons q rest ih =>
    obtain ⟨k0, v0⟩ := q
    by_cases h0 : k0 = k
    · simp [setAssoc, lookupAssoc, h0]
    · simp only [setAssoc, if_neg h0, lookupAssoc, List.map_cons, ih]
      cases hl : (lookupAssoc rest k).isSome <;> simp [hl]

/-- Helper: a key occurring in the key list has a `some` lookup. -/
theorem lookup_isSome_of_mem_keys {V : Type} (m : List (List Char × V))
    (a : List Char) (ha : a ∈ m.map Prod.fst) :
    lookupAssoc m a ≠ none := by
  induction m with
  | nil => simp at ha
  | cons q rest ih =>
    obtain ⟨k0, v0⟩ := q
    simp only [List.map_cons, List.mem_cons] at ha
    rcases ha with ha | ha
    · simp [lookupAssoc, ha.symm]
    · by_cases h0 : k0 = a
      · simp [lookupAssoc, h0]
      · simp [lookupAssoc, h0, ih ha]

/-- Helper: a `set` keeps the keys duplicate-free. -/
theorem nodup_keys_setAssoc {V : Type} (m : List (List Char × V))
    (k : List Char) (v : V) (hnd : (m.map Prod.fst).Nodup) :
    ((setAssoc m k v).map Prod.fst).Nodup := by
  rw [keys_setAssoc]
  cases hl : (lookupAssoc m k).isSome with
  | true => simpa using hnd
  | false =>
    simp only [Bool.false_eq_true, if_false]
    rw [List.nodup_append]
    refine ⟨hnd, List.nodup_singleton k, ?_⟩
    intro a ha hk
    simp only [List.mem_singleton] at hk
    subst hk
    cases hlk : lookupAssoc m a with
    | none => exact lookup_isSome_of_mem_keys m a ha hlk
    | some x =>
      rw [hlk] at hl
      simp at hl

/-- Helper: an upsert fold keeps the map's keys duplicate-free and every
stored entry keyed consistently with its value. -/
theorem foldl_upsert_invariant {β V : Type} (keyOf : β → List Char)
    (adj : Option V → β → V) (vk : V → List Char)
    (hadj : ∀ o b, vk (adj o b) = keyOf b)
    (l : List β) (m : List (List Char × V))
    (hnd : (m.map Prod.fst).Nodup) (hkc : ∀ p ∈ m, vk p.2 = p.1) :
    (((l.foldl (fun mm b => setAssoc mm (keyOf b) (adj (lookupAssoc mm (keyOf b)) b)) m).map Prod.fst).Nodup) ∧
    (∀ p ∈ (l.foldl (fun mm b => setAssoc mm (keyOf b) (adj (lookupAssoc mm (keyOf b)) b)) m), vk p.2 = p.1) := by
  induction l generalizing m with
  | nil => exact ⟨hnd, hkc⟩
  | cons b t ih =>
    simp only [List.foldl_cons]
    refine ih _ (nodup_keys_setAssoc _ _ _ hnd) ?_
    intro p hp
    rcases mem_setAssoc _ _ _ _ hp with hm | he
    · exact hkc p hm
    · rw [he]
      exact hadj _ _

/-- Helper: the value list of a consistently-keyed duplicate-free map,
filtered to one key, is the lookup of that key. -/
theorem values_filter_eq_lookup {V : Type} (vk : V → List Char)
    (m : List (List Char × V)) (k : List Char)
    (hnd : (m.map Prod.fst).Nodup) (hkc : ∀ p ∈ m, vk p.2 = p.1) :
    ((m.map Prod.snd).filter (fun e => vk e == k)).head? = lookupAssoc m k ∧
    ((m.map Prod.snd).filter (fun e => vk e == k)).length ≤ 1 := by
  induction m with
  | nil => exact ⟨rfl, by simp⟩
  | cons q rest ih =>
    obtain ⟨k0, v0⟩ := q
    have hv0 : vk v0 = k0 := hkc (k0, v0) (List.mem_cons_self _ _)
    have hndr : (rest.map Prod.fst).Nodup := (List.nodup_cons.mp hnd).2
    have hk0 : k0 ∉ rest.map Prod.fst := (List.nodup_cons.mp hnd).1
    have hkcr : ∀ p ∈ rest, vk p.2 = p.1 :=
      fun p hp => hkc p (List.mem_cons_of_mem _ hp)
    obtain ⟨ihh, ihl⟩ := ih hndr hkcr
    simp only [List.map_cons, List.filter_cons, lookupAssoc]
    by_cases h : k0 = k
    · rw [if_pos (show ((vk v0 == k) = true) by simp [hv0, h]), if_pos h]
      have hrest : (rest.map Prod.snd).filter (fun e => vk e == k) = [] := by
        rw [List.filter_eq_nil_iff]
        intro e he hbe
        obtain ⟨p, hpmem, hpe⟩ := List.mem_map.mp he
        have h1 : vk e = p.1 := by rw [← hpe]; exact hkcr p hpmem
        have h2 : p.1 ∈ rest.map Prod.fst := List.mem_map_of_mem Prod.fst hpmem
        rw [beq_iff_eq] at hbe
        have h3 : p.1 = k0 := by rw [← h1, hbe]; exact h.symm
        exact hk0 (h3 ▸ h2)
      rw [hrest]
      exact ⟨rfl, by simp⟩
    · rw [if_neg (show ¬((vk v0 == k) = true) by simp [hv0, h]), if_neg h]
      exact ⟨ihh, ihl⟩

/-- Helper: looking a case-folded key up in the merged catalog map chains
the specification upserts onto the last previous entry for that key. -/
theorem mergeCatalog_lookup (prev neu : List SignTypeDefinition) (k : List Char) :
    lookupAssoc
        (neu.foldl upsertNew
          (prev.foldl (fun m c => setAssoc m (toLowerL c.typeCode) c) [])) k
      = upsertChain ((prev.filter (fun c => toLowerL c.typeCode == k)).getLast?)
          (neu.filter (fun c => toLowerL c.typeCode == k)) := by
  have h0 : lookupAssoc (prev.foldl (fun m c => setAssoc m (toLowerL c.typeCode) c) []) k
      = (prev.filter (fun c => toLowerL c.typeCode == k)).getLast? := by
    have := lookup_foldl_upsert (fun c : SignTypeDefinition => toLowerL c.typeCode)
      (fun _ c => c) prev [] k
    simp only [lookupAssoc] at this
    rw [show (prev.foldl (fun m c => setAssoc m (toLowerL c.typeCode) c) []) =
        (prev.foldl (fun mm b => setAssoc mm (toLowerL b.typeCode)
          ((fun (_ : Option SignTypeDefinition) c => c) (lookupAssoc mm (toLowerL b.typeCode)) b)) []) from rfl]
    rw [this]
    exact foldl_some_getLast_none _
  show lookupAssoc
      (neu.foldl (fun mm b => setAssoc mm (toLowerL b.typeCode)
        (specUpsert (lookupAssoc mm (toLowerL b.typeCode)) b))
        (prev.foldl (fun m c => setAssoc m (toLowerL c.typeCode) c) [])) k = _
  rw [lookup_foldl_upsert (fun c : SignTypeDefinition => toLowerL c.typeCode) specUpsert]
  rw [h0]
  rfl

/-- C6: merging an extraction catalog into the cumulative project catalog
compares type codes case-insensitively (entries are keyed by `k`, ranging
over case-folded codes), keeps at most one entry per case-folded code, and
the surviving entry for each code is the chain of specification upserts —
later write wins for every field, except that an existing design image is
preserved when the incoming entry carries none — applied to the last
previous entry for that code. -/
theorem mergeCatalog_upsert (prev neu : List SignTypeDefinition) (k : List Char) :
    ((mergeCatalog prev neu).filter (fun e => toLowerL e.typeCode == k)).length ≤ 1 ∧
    ((mergeCatalog prev neu).filter (fun e => toLowerL e.typeCode == k)).head?
      = upsertChain ((prev.filter (fun c => toLowerL c.typeCode == k)).getLast?)
          (neu.filter (fun c => toLowerL c.typeCode == k)) := by
  have hspecty : ∀ (o : Option SignTypeDefinition) (c : SignTypeDefinition),
      toLowerL (specUpsert o c).typeCode = toLowerL c.typeCode := by
    intro o c
    cases o with
    | none => rfl
    | some e =>
      simp only [specUpsert]
      split
      · rfl
      · rfl
  have hinv0 := foldl_upsert_invariant
    (fun c : SignTypeDefinition => toLowerL c.typeCode) (fun _ c => c)
    (fun c => toLowerL c.typeCode) (fun _ _ => rfl) prev [] (by simp) (by simp)
  have hinv1 := foldl_upsert_invariant
    (fun c : SignTypeDefinition => toLowerL c.typeCode) specUpsert
    (fun c => toLowerL c.typeCode) hspecty neu
    (prev.foldl (fun mm b => setAssoc mm (toLowerL b.typeCode)
      ((fun (_ : Option SignTypeDefinition) c => c) (lookupAssoc mm (toLowerL b.typeCode)) b)) [])
    hinv0.1 hinv0.2
  have hvals := values_filter_eq_lookup (fun c : SignTypeDefinition => toLowerL c.typeCode)
    (neu.foldl (fun mm b => setAssoc mm (toLowerL b.typeCode)
      (specUpsert (lookupAssoc mm (toLowerL b.typeCode)) b))
      (prev.foldl (fun mm b => setAssoc mm (toLowerL b.typeCode)
        ((fun (_ : Option SignTypeDefinition) c => c) (lookupAssoc mm (toLowerL b.typeCode)) b)) []))
    k hinv1.1 hinv1.2
  have hmc : mergeCatalog prev neu =
      (neu.foldl (fun mm b => setAssoc mm (toLowerL b.typeCode)
        (specUpsert (lookupAssoc mm (toLowerL b.typeCode)) b))
        (prev.foldl (fun mm b => setAssoc mm (toLowerL b.typeCode)
          ((fun (_ : Option SignTypeDefinition) c => c) (lookupAssoc mm (toLowerL b.typeCode)) b)) [])).map Prod.snd := rfl
  rw [hmc]
  refine ⟨hvals.2, ?_⟩
  rw [hvals.1]
  have hml := mergeCatalog_lookup prev neu k
  rw [show (neu.foldl upsertNew
      (prev.foldl (fun m c => setAssoc m (toLowerL c.typeCode) c) [])) =
    (neu.foldl (fun mm b => setAssoc mm (toLowerL b.typeCode)
      (specUpsert (lookupAssoc mm (toLowerL b.typeCode)) b))
      (prev.foldl (fun mm b => setAssoc mm (toLowerL b.typeCode)
        ((fun (_ : Option SignTypeDefinition) c => c) (lookupAssoc mm (toLowerL b.typeCode)) b)) [])) from rfl] at hml
  exact hml

/-- Helper: looking up a registration fold gives the key's last value. -/
theorem lookup_foldl_set (regs : List (List Char × DesignImg)) (k : List Char) :
    lookupAssoc (regs.foldl (fun m p => setAssoc m p.1 p.2) []) k = lastVal regs k := by
  show lookupAssoc (regs.foldl (fun mm b => setAssoc mm b.1
    ((fun (_ : Option DesignImg) (p : List Char × DesignImg) => p.2) (lookupAssoc mm b.1) b)) []) k = _
  rw [lookup_foldl_upsert Prod.fst (fun _ p => p.2) regs [] k]
  simp only [lookupAssoc]
  rw [foldl_some_eq_getLast Prod.snd]
  unfold lastVal
  cases (regs.filter (fun p => p.1 == k)).getLast? <;> rfl

/-- Helper: the last value of a key after one more registration. -/
theorem lastVal_append_single (rs : List (List Char × DesignImg))
    (r : List Char × DesignImg) (k : List Char) :
    lastVal (rs ++ [r]) k = if r.1 == k then some r.2 else lastVal rs k := by
  unfold lastVal
  rw [List.filter_append]
  by_cases h : (r.1 == k) = true
  · rw [if_pos h]
    have : List.filter (fun p => p.1 == k) [r] = [r] := by simp [List.filter_cons, h]
    rw [this, List.getLast?_concat]
    rfl
  · rw [if_neg h]
    have : List.filter (fun p => p.1 == k) [r] = [] := by
      simp only [List.filter_cons, List.filter_nil]
      rw [if_neg h]
    rw [this, List.append_nil]

/-- Helper: a key with a last value occurs among the registrations. -/
theorem lastVal_mem_key (rs : List (List Char × DesignImg)) (k : List Char)
    (v : DesignImg) (h : lastVal rs k = some v) : ∃ p ∈ rs, p.1 = k := by
  unfold lastVal at h
  cases hgl : (rs.filter (fun p => p.1 == k)).getLast? with
  | none => rw [hgl] at h; simp at h
  | some q =>
    have hq := List.mem_of_mem_getLast? hgl
    rw [List.mem_filter] at hq
    exact ⟨q, hq.1, by simpa using hq.2⟩

/-- Helper: `find?` with a key-only predicate after a `set` on a
duplicate-free map: the found key is unchanged, its value is updated when it
is the set key; a fresh key is appended and found only when nothing earlier
matches. -/
theorem find_setAssoc_keypred {V : Type} (m : List (List Char × V))
    (k : List Char) (v : V) (pred : List Char → Bool)
    (hnd : (m.map Prod.fst).Nodup) :
    (setAssoc m k v).find? (fun p => pred p.1) =
      match m.find? (fun p => pred p.1), lookupAssoc m k with
      | some q, _ => some (if q.1 = k then (k, v) else q)
      | none, some _ => none
      | none, none => if pred k then some (k, v) else none := by
  induction m with
  | nil =>
    simp only [setAssoc, List.find?_singleton, List.find?_nil, lookupAssoc]
  | cons q0 rest ih =>
    obtain ⟨k0, v0⟩ := q0
    have hndr : (rest.map Prod.fst).Nodup := (List.nodup_cons.mp hnd).2
    have hk0 : k0 ∉ rest.map Prod.fst := (List.nodup_cons.mp hnd).1
    by_cases h0 : k0 = k
    · subst h0
      simp only [setAssoc, if_pos rfl, List.find?_cons, lookupAssoc]
      rcases Bool.eq_false_or_eq_true (pred k0) with hp | hp
      · simp [hp]
      · simp only [hp]
        cases hf : rest.find? (fun p => pred p.1) with
        | none => simp [hp, hf]
        | some q =>
          have hqmem := List.mem_of_find?_eq_some hf
          have hq1 : q.1 ∈ rest.map Prod.fst := List.mem_map_of_mem Prod.fst hqmem
          have hqne : ¬ (q.1 = k0) := fun hc => hk0 (hc ▸ hq1)
          simp [hp, hf, hqne]
    · simp only [setAssoc, if_neg h0, List.find?_cons, lookupAssoc]
      rcases Bool.eq_false_or_eq_true (pred k0) with hp | hp
      · simp [hp, h0]
      · simp only [hp]
        rw [ih hndr]

/-- Helper: a registration fold keeps keys duplicate-free. -/
theorem nodup_keys_foldl_set {V : Type} (regs : List (List Char × V))
    (m : List (List Char × V)) (hnd : (m.map Prod.fst).Nodup) :
    (((regs.foldl (fun mm p => setAssoc mm p.1 p.2) m)).map Prod.fst).Nodup := by
  induction regs generalizing m with
  | nil => exact hnd
  | cons p t ih =>
    simp only [List.foldl_cons]
    exact ih _ (nodup_keys_setAssoc _ _ _ hnd)

/-- Helper: a key's last value exists exactly when the key is registered. -/
theorem lastVal_isSome_of_mem (rs : List (List Char × DesignImg))
    (q : List Char × DesignImg) (hq : q ∈ rs) :
    ∃ v, lastVal rs q.1 = some v := by
  unfold lastVal
  cases hgl : (rs.filter (fun p => p.1 == q.1)).getLast? with
  | some x => exact ⟨x.2, rfl⟩
  | none =>
    rw [List.getLast?_eq_none_iff] at hgl
    have hmem : q ∈ rs.filter (fun p => p.1 == q.1) :=
      List.mem_filter.mpr ⟨hq, by simp⟩
    rw [hgl] at hmem
    simp at hmem

/-- Helper: `find?` with a key-only predicate over a whole registration
fold: the key of the first matching registration, carrying that key's last
registered value. -/
theorem find_foldl_set (regs : List (List Char × DesignImg))
    (pred : List Char → Bool) :
    ((regs.foldl (fun m p => setAssoc m p.1 p.2) []).find? (fun p => pred p.1))
      = match regs.find? (fun p => pred p.1) with
        | none => none
        | some q => (lastVal regs q.1).map (fun v => (q.1, v)) := by
  induction regs using List.reverseRecOn with
  | nil => rfl
  | append_singleton rs r ih =>
    rw [List.foldl_append]
    simp only [List.foldl_cons, List.foldl_nil]
    rw [find_setAssoc_keypred _ _ _ _ (nodup_keys_foldl_set rs [] (by simp))]
    rw [ih, lookup_foldl_set, List.find?_append]
    cases hf : rs.find? (fun p => pred p.1) with
    | some q =>
      obtain ⟨v, hv⟩ := lastVal_isSome_of_mem rs q (List.mem_of_find?_eq_some hf)
      simp only [hv, Option.map_some, Option.or, lastVal_append_single]
      by_cases hqr : q.1 = r.1
      · simp [hqr]
      · have hne : ¬ ((r.1 == q.1) = true) := by
          simp only [beq_iff_eq]
          exact fun h => hqr h.symm
        simp [hqr, hne, hv]
    | none =>
      rw [List.find?_singleton]
      cases hl : lastVal rs r.1 with
      | some w =>
        obtain ⟨p, hpmem, hpk⟩ := lastVal_mem_key rs r.1 w hl
        have hpredr : pred r.1 = false := by
          have hnp := (List.find?_eq_none.mp hf) p hpmem
          rw [hpk] at hnp
          exact eq_false_of_ne_true hnp
        simp [hpredr]
      | none =>
        by_cases hpr : pred r.1 = true
        · simp only [if_pos hpr, Option.none_or, lastVal_append_single]
          simp
        · simp [hpr]

/-- Helper: the two lookup maps of `processVisuals` are the registration
folds of the exact and fuzzy key registrations. -/
theorem buildMaps_eq (catalog : List SignTypeDefinition) :
    buildMaps catalog =
      ((exactRegs catalog).foldl (fun m p => setAssoc m p.1 p.2) [],
       (fuzzyRegs catalog).foldl (fun m p => setAssoc m p.1 p.2) []) := by
  suffices h : ∀ dm fk : List (List Char × DesignImg),
      catalog.foldl (fun maps c =>
        match c.designImage with
        | some img =>
          let dm1 := setAssoc maps.1 (toLowerL c.typeCode) img
          let dm2 := if c.description.isEmpty then dm1
                     else setAssoc dm1 (toLowerL c.description) img
          let fk1 := if c.typeCode.isEmpty then maps.2
                     else setAssoc maps.2 (normalizeKey c.typeCode) img
          (dm2, fk1)
        | none => maps) (dm, fk)
      = ((exactRegs catalog).foldl (fun m p => setAssoc m p.1 p.2) dm,
         (fuzzyRegs catalog).foldl (fun m p => setAssoc m p.1 p.2) fk) by
    exact h [] []
  induction catalog with
  | nil => intro dm fk; rfl
  | cons c t ih =>
    intro dm fk
    simp only [List.foldl_cons, exactRegs, fuzzyRegs, List.flatMap_cons,
      List.foldl_append]
    cases himg : c.designImage with
    | none =>
      simp only [List.foldl_nil]
      exact ih dm fk
    | some img =>
      by_cases hd : c.description.isEmpty
      · by_cases htc : c.typeCode.isEmpty
        · simp only [hd, htc, if_true, List.foldl_cons, List.foldl_nil]
          exact ih _ _
        · simp only [hd, htc, if_true, if_false, List.foldl_cons, List.foldl_nil]
          exact ih _ _
      · by_cases htc : c.typeCode.isEmpty
        · simp only [hd, htc, if_true, if_false, List.foldl_cons, List.foldl_nil]
          exact ih _ _
        · simp only [hd, htc, if_false, List.foldl_cons, List.foldl_nil]
          exact ih _ _

/-- C7 (amended): linking a takeoff item against the lookup built from the
processed catalog proceeds as: first an exact case-insensitive match of the
item's sign type against the registered type codes AND descriptions of
image-carrying catalog entries (the last registration of a key winning),
then the normalized-key match, then a substring match in either direction
against the registered normalized keys with the first registration in
catalog order winning; an unmatched item is unchanged. -/
theorem linkItem_spec (catalog : List SignTypeDefinition) (item : SignageItem) :
    linkItem (buildMaps catalog).1 (buildMaps catalog).2 item =
      match specLinkImage catalog item.signType with
      | some img => { item with designImage := some img }
      | none => item := by
  rw [buildMaps_eq]
  have h3 := find_foldl_set (fuzzyRegs catalog)
    (fun k => containsSub k (normalizeKey item.signType) ||
      containsSub (normalizeKey item.signType) k)
  simp only at h3
  simp only [linkItem, specLinkImage]
  rw [lookup_foldl_set, lookup_foldl_set, h3]
  cases lastVal (exactRegs catalog) (toLowerL item.signType) with
  | some img => rfl
  | none =>
    cases lastVal (fuzzyRegs catalog) (normalizeKey item.signType) with
    | some img => rfl
    | none =>
      cases (fuzzyRegs catalog).find? (fun p =>
          containsSub p.1 (normalizeKey item.signType) ||
          containsSub (normalizeKey item.signType) p.1) with
      | none => rfl
      | some q =>
        cases hlv : lastVal (fuzzyRegs catalog) q.1 with
        | some v => simp [hlv]
        | none => simp [hlv]

/-- Helper: the concrete catalog entry's crop succeeds and captures the
whole padded-and-clamped page. -/
theorem descEntry_processed :
    processCatalogEntry descDims descEntry =
      { descEntry with designImage := some (DesignImg.crop 0 ⟨0, 0, 1000, 1000⟩) } := by
  have hcrop : cropImage ⟨1000, 1000, 0, 0, 1000, 1000, (1/5 : ℚ)⟩
      = some ⟨0, 0, 1000, 1000⟩ := by
    norm_num [cropImage, cropPixelW, cropPixelH, cropPixelX, cropPixelY,
      cropPixelW0, cropPixelH0, cropPixelX0, cropPixelY0, cropPadX, cropPadY,
      min_def, max_def]
  simp only [processCatalogEntry, autoImageIndex, descDims, descEntry]
  norm_num
  rw [hcrop]

/-- C7 counterexample: an inventory item whose sign type equals a catalog
entry's description (but no type code, no normalized key, and no substring
relation with any registered normalized key) is nevertheless linked to that
entry's cropped image — the exact-match lookup is also keyed by lowercased
descriptions, which the claim's three-stage procedure omits. -/
theorem processVisuals_description_match_counterexample :
    (∀ c ∈ descCatalog, toLowerL c.typeCode ≠ toLowerL descItem.signType) ∧
    (∀ c ∈ descCatalog, normalizeKey c.typeCode ≠ normalizeKey descItem.signType ∧
      containsSub (normalizeKey c.typeCode) (normalizeKey descItem.signType) = false ∧
      containsSub (normalizeKey descItem.signType) (normalizeKey c.typeCode) = false) ∧
    ((processVisuals descDims descResult).takeoff.map (fun it => it.designImage))
      = [some (DesignImg.crop 0 ⟨0, 0, 1000, 1000⟩)] := by
  refine ⟨by decide, by decide, ?_⟩
  have hto : (processVisuals descDims descResult).takeoff
      = [linkItem
          (buildMaps [{ descEntry with
            designImage := some (DesignImg.crop 0 ⟨0, 0, 1000, 1000⟩) }]).1
          (buildMaps [{ descEntry with
            designImage := some (DesignImg.crop 0 ⟨0, 0, 1000, 1000⟩) }]).2
          descItem] := by
    simp only [processVisuals, descResult, descCatalog, List.map_cons, List.map_nil]
    rw [descEntry_processed]
  rw [hto]
  decide

/-- C7 (amended), lifted to `processVisuals`: every takeoff item is linked by
the three-stage procedure of `specLinkImage` — exact case-insensitive match
against registered type codes and descriptions (last registration winning),
then normalized-key match, then substring match in either direction with the
first registration in catalog order winning — against the processed catalog;
an unmatched item is left unchanged. -/
theorem processVisuals_linking (dims : List (ℚ × ℚ)) (result : AnalysisResult) :
    (processVisuals dims result).takeoff
      = result.takeoff.map (fun item =>
          match specLinkImage (result.catalog.map (processCatalogEntry dims))
              item.signType with
          | some img => { item with designImage := some img }
          | none => item) := by
  simp only [processVisuals]
  exact List.map_congr_left (fun item _ => linkItem_spec _ item)

/-- The specification's fuzzy-link example: `Sign A1` is linked to the
cropped visual of catalog entry `A-1` through the normalized-key match. -/
theorem fuzzy_link_example :
    ((processVisuals descDims a1Result).takeoff.map (fun it => it.designImage))
      = [some (DesignImg.crop 0 ⟨0, 0, 1000, 1000⟩)] ∧
    normalizeKey (str ("Sign A1")) = normalizeKey (str ("A-1")) := by
  refine ⟨?_, by decide⟩
  have hcrop : cropImage ⟨1000, 1000, 0, 0, 1000, 1000, (1/5 : ℚ)⟩
      = some ⟨0, 0, 1000, 1000⟩ := by
    norm_num [cropImage, cropPixelW, cropPixelH, cropPixelX, cropPixelY,
      cropPixelW0, cropPixelH0, cropPixelX0, cropPixelY0, cropPadX, cropPadY,
      min_def, max_def]
  have ha1 : processCatalogEntry descDims a1Entry =
      { a1Entry with designImage := some (DesignImg.crop 0 ⟨0, 0, 1000, 1000⟩) } := by
    simp only [processCatalogEntry, autoImageIndex, descDims, a1Entry]
    norm_num
    rw [hcrop]
  have hto : (processVisuals descDims a1Result).takeoff
      = [linkItem
          (buildMaps [{ a1Entry with
            designImage := some (DesignImg.crop 0 ⟨0, 0, 1000, 1000⟩) }]).1
          (buildMaps [{ a1Entry with
            designImage := some (DesignImg.crop 0 ⟨0, 0, 1000, 1000⟩) }]).2
          a1Item] := by
    simp only [processVisuals, a1Result, List.map_cons, List.map_nil]
    rw [ha1]
  rw [hto]
  decide

/-- Helper: on a strictly increasing list the maximum is the last element. -/
theorem max_eq_getLast_of_pairwise_lt (l : List Nat)
    (h : l.Pairwise (· < ·)) : l.max? = l.getLast? := by
  induction l with
  | nil => rfl
  | cons a t ih =>
    rcases List.pairwise_cons.mp h with ⟨ha, ht⟩
    cases t with
    | nil => rfl
    | cons b u =>
      have hab : a < b := ha b (by simp)
      rw [List.getLast?_cons_cons, ← ih ht]
      show some (List.foldl max a (b :: u)) = some (List.foldl max b u)
      rw [List.foldl_cons, max_eq_right hab.le]

/-- Helper: pushing the resolved sheets one by one is a `filterMap`. -/
theorem foldl_push_filterMap {β γ : Type} (f : β → Option γ) (l : List β)
    (acc : List γ) :
    l.foldl (fun a b => (f b).elim a (fun c => a ++ [c])) acc
      = acc ++ l.filterMap f := by
  induction l generalizing acc with
  | nil => simp
  | cons b t ih =>
    simp only [List.foldl_cons, List.filterMap_cons]
    cases hf : f b with
    | none => simp only [Option.elim_none]; rw [ih]
    | some c =>
      simp only [Option.elim_some]
      rw [ih, List.append_assoc, List.singleton_append]

/-- C5 (amended): `identifyKeyPages` resolution equals, sheet by sheet, the
specification rule: collect all matching page indices, resolve to the
greatest (= last in document order), and omit the sheet when its normalized
label is empty, when there is no match, or when the guard (last match still
inside the scanned table-of-contents range of a longer document) fires. -/
theorem resolveKeyPages_spec (identified : List IdentifiedSheet)
    (pageTexts : List (List Char)) (tocScanRange : Nat) :
    resolveKeyPages identified pageTexts tocScanRange
      = identified.filterMap (specResolveSheet pageTexts tocScanRange) := by
  unfold resolveKeyPages
  have hbody : ∀ (acc : List KeyPage) (item : IdentifiedSheet),
      (if (normalizeSheetText item.sheetNumber).isEmpty then acc
       else
        match (sheetMatches (normalizeSheetText item.sheetNumber) pageTexts).getLast? with
        | none => acc
        | some lastMatch =>
          if lastMatch < tocScanRange ∧ pageTexts.length > tocScanRange then acc
          else acc ++ [⟨item.sheetNumber, item.description, item.category, lastMatch⟩])
      = (specResolveSheet pageTexts tocScanRange item).elim acc
          (fun kp => acc ++ [kp]) := by
    intro acc item
    unfold specResolveSheet
    by_cases he : (normalizeSheetText item.sheetNumber).isEmpty
    · rw [if_pos he, if_pos he]
      rfl
    · rw [if_neg he, if_neg he]
      have hpw : ((List.range pageTexts.length).filter
          (fun i => containsSub (normalizeSheetText item.sheetNumber)
            (normalizeSheetText (pageTexts.getD i [])))).Pairwise (· < ·) :=
        (List.pairwise_lt_range _).sublist (List.filter_sublist _)
      rw [max_eq_getLast_of_pairwise_lt _ hpw]
      unfold sheetMatches
      cases hgl : ((List.range pageTexts.length).filter
          (fun i => containsSub (normalizeSheetText item.sheetNumber)
            (normalizeSheetText (pageTexts.getD i [])))).getLast? with
      | none => rfl
      | some lastMatch =>
        by_cases hg : lastMatch < tocScanRange ∧ pageTexts.length > tocScanRange
        · simp [hg]
        · simp [hg]
  have hfun : (fun (acc : List KeyPage) (item : IdentifiedSheet) =>
      if (normalizeSheetText item.sheetNumber).isEmpty then acc
      else
        match (sheetMatches (normalizeSheetText item.sheetNumber) pageTexts).getLast? with
        | none => acc
        | some lastMatch =>
          if lastMatch < tocScanRange ∧ pageTexts.length > tocScanRange then acc
          else acc ++ [⟨item.sheetNumber, item.description, item.category, lastMatch⟩])
      = (fun acc item =>
          (specResolveSheet pageTexts tocScanRange item).elim acc
            (fun kp => acc ++ [kp])) :=
    funext fun acc => funext fun item => hbody acc item
  rw [hfun]
  have hff := foldl_push_filterMap (specResolveSheet pageTexts tocScanRange) identified []
  rw [List.nil_append] at hff
  exact hff

/-- C5 counterexample: a sheet label that normalizes to the empty string
matches every page (the empty string is a substring of any text), its last
match (page 3) lies outside the scanned range, and yet the resolver omits
the sheet — the claimed resolution rule would return page 3. -/
theorem resolveKeyPages_blank_label_counterexample :
    resolveKeyPages [blankSheet] fourPages 1 = [] ∧
    (∀ i, i < fourPages.length →
      containsSub (normalizeSheetText blankSheet.sheetNumber)
        (normalizeSheetText (fourPages.getD i [])) = true) ∧
    (sheetMatches (normalizeSheetText blankSheet.sheetNumber) fourPages).getLast?
      = some 3 ∧
    ¬ (3 < 1 ∧ fourPages.length > 1) := by decide

/-- The specification's resolver example, first half: an `A-101` occurring
only on page 0 of a 50-page document (inside the 3-page scan range) resolves
to no page. -/
theorem resolveKeyPages_toc_only_example :
    resolveKeyPages [a101Sheet] tocOnlyTexts 3 = [] := by decide

/-- The specification's resolver example, second half: an additional
occurrence on page 37 resolves the sheet to page 37. -/
theorem resolveKeyPages_body_example :
    resolveKeyPages [a101Sheet] tocAndBodyTexts 3
      = [⟨str ("A-101"), str ("Signage Plan"), str ("Floor Plan"), 37⟩] := by
  decide

/-- Helper: a non-structural character leaves the out-of-string scan state
unchanged. -/
theorem scanStep_other (s : List Char) (c : Char) (h1 : c ≠ '"')
    (h2 : c ≠ '{') (h3 : c ≠ '[') (h4 : c ≠ '}') (h5 : c ≠ ']') :
    scanStep ⟨s, false, false⟩ c = ⟨s, false, false⟩ := by
  simp [scanStep, h1, h2, h3, h4, h5]

/-- Helper: the empty segment is neutral. -/
theorem neutralSeg_nil : NeutralSeg [] := fun _ => rfl

/-- Helper: neutral segments compose. -/
theorem neutralSeg_append {a b : List Char} (ha : NeutralSeg a)
    (hb : NeutralSeg b) : NeutralSeg (a ++ b) := by
  intro s
  unfold NeutralSeg at ha hb
  unfold scanChars at ha hb ⊢
  rw [List.foldl_append, ha s, hb s]

/-- Helper: a neutral character extends a neutral segment. -/
theorem neutralSeg_cons {c : Char} {t : List Char}
    (hc : ∀ s : List Char, scanStep ⟨s, false, false⟩ c = ⟨s, false, false⟩)
    (ht : NeutralSeg t) : NeutralSeg (c :: t) := by
  intro s
  unfold NeutralSeg at ht
  unfold scanChars at ht ⊢
  rw [List.foldl_cons, hc s, ht s]

/-- Helper: a list of non-structural characters is neutral. -/
theorem neutralSeg_of_all {l : List Char}
    (h : ∀ c ∈ l, c ≠ '"' ∧ c ≠ '{' ∧ c ≠ '[' ∧ c ≠ '}' ∧ c ≠ ']') :
    NeutralSeg l := by
  induction l with
  | nil => exact neutralSeg_nil
  | cons c t ih =>
    obtain ⟨n1, n2, n3, n4, n5⟩ := h c (List.mem_cons_self _ _)
    exact neutralSeg_cons (fun s => scanStep_other s c n1 n2 n3 n4 n5)
      (ih (fun d hd => h d (List.mem_cons_of_mem _ hd)))

/-- Helper: a JSON whitespace character is non-structural. -/
theorem isJsonWs_nonstructural (c : Char) (h : isJsonWs c = true) :
    c ≠ '"' ∧ c ≠ '{' ∧ c ≠ '[' ∧ c ≠ '}' ∧ c ≠ ']' := by
  refine ⟨?_, ?_, ?_, ?_, ?_⟩ <;>
    exact fun he => absurd (he ▸ h) (by decide)

/-- Helper: a digit is non-structural. -/
theorem isDigit_nonstructural (c : Char) (h : c.isDigit = true) :
    c ≠ '"' ∧ c ≠ '{' ∧ c ≠ '[' ∧ c ≠ '}' ∧ c ≠ ']' := by
  refine ⟨?_, ?_, ?_, ?_, ?_⟩ <;>
    exact fun he => absurd (he ▸ h) (by decide)

/-- Helper: a whitespace run is neutral. -/
theorem neutralSeg_takeWhile_ws (l : List Char) :
    NeutralSeg (l.takeWhile isJsonWs) :=
  neutralSeg_of_all (fun c hc => isJsonWs_nonstructural c (List.mem_takeWhile_imp hc))

/-- Helper: a digit run is neutral. -/
theorem neutralSeg_takeWhile_digit (l : List Char) :
    NeutralSeg (l.takeWhile Char.isDigit) :=
  neutralSeg_of_all (fun c hc => isDigit_nonstructural c (List.mem_takeWhile_imp hc))

/-- Helper: the scan steps inside a string literal. -/
theorem scanStep_inStr_escaped (s : List Char) (c : Char) :
    scanStep ⟨s, true, true⟩ c = ⟨s, true, false⟩ := by
  simp [scanStep]

/-- Helper: an unescaped ordinary character keeps the scan inside the
string. -/
theorem scanStep_inStr_plain (s : List Char) (c : Char) (h1 : c ≠ '\\')
    (h2 : c ≠ '"') : scanStep ⟨s, true, false⟩ c = ⟨s, true, false⟩ := by
  simp [scanStep, h1, h2]

/-- Helper: a backslash sets the escape flag. -/
theorem scanStep_inStr_backslash (s : List Char) :
    scanStep ⟨s, true, false⟩ '\\' = ⟨s, true, true⟩ := by
  simp [scanStep]

/-- Helper: an unescaped quote leaves the string. -/
theorem scanStep_inStr_quote (s : List Char) :
    scanStep ⟨s, true, false⟩ '"' = ⟨s, false, false⟩ := by
  simp [scanStep]

/-- Helper: a hexadecimal digit is neither a backslash nor a quote. -/
theorem isHexChar_ne (c : Char) (h : isHexChar c = true) :
    c ≠ '\\' ∧ c ≠ '"' :=
  ⟨fun he => absurd (he ▸ h) (by decide), fun he => absurd (he ▸ h) (by decide)⟩


/-- Helper: an accepted JSON string body (with its closing quote) brings
the scan from inside the string back outside, leaving the stack alone. -/
theorem jsonStrRest_strSeg : ∀ (n : Nat) (cs rest : List Char),
    cs.length ≤ n → jsonStrRest cs = some rest →
    ∃ pre, cs = pre ++ rest ∧ StrSeg pre := by
  intro n
  induction n with
  | zero =>
    intro cs rest hle hp
    cases cs with
    | nil => simp [jsonStrRest] at hp
    | cons c t => simp at hle
  | succ n ih =>
    intro cs rest hle hp
    cases cs with
    | nil => simp [jsonStrRest] at hp
    | cons c t =>
      rw [jsonStrRest.eq_def] at hp
      simp only [] at hp
      by_cases hq : c = '"'
      · rw [if_pos hq] at hp
        injection hp with hp
        subst hq
        subst hp
        refine ⟨['"'], by simp, ?_⟩
        intro s
        exact scanStep_inStr_quote s
      · rw [if_neg hq] at hp
        by_cases hb : c = '\\'
        · rw [if_pos hb] at hp
          subst hb
          cases t with
          | nil => simp at hp
          | cons e t2 =>
            simp only [] at hp
            by_cases hu : e = 'u'
            · rw [if_pos hu] at hp
              subst hu
              rcases t2 with _ | ⟨x1, _ | ⟨x2, _ | ⟨x3, _ | ⟨x4, t3⟩⟩⟩⟩
              · simp at hp
              · simp at hp
              · simp at hp
              · simp at hp
              · simp only [] at hp
                by_cases hhex : isHexChar x1 = true ∧ isHexChar x2 = true ∧
                    isHexChar x3 = true ∧ isHexChar x4 = true
                · rw [if_pos ⟨hhex.1, hhex.2.1, hhex.2.2.1, hhex.2.2.2⟩] at hp
                  obtain ⟨pre, hpre, hseg⟩ := ih t3 rest
                    (by simp at hle; omega) hp
                  refine ⟨'\\' :: 'u' :: x1 :: x2 :: x3 :: x4 :: pre,
                    by simp [hpre], ?_⟩
                  intro s
                  show List.foldl scanStep ⟨s, true, false⟩ _ = _
                  rw [List.foldl_cons, scanStep_inStr_backslash,
                    List.foldl_cons, scanStep_inStr_escaped,
                    List.foldl_cons,
                    scanStep_inStr_plain s x1 (isHexChar_ne x1 hhex.1).1
                      (isHexChar_ne x1 hhex.1).2,
                    List.foldl_cons,
                    scanStep_inStr_plain s x2 (isHexChar_ne x2 hhex.2.1).1
                      (isHexChar_ne x2 hhex.2.1).2,
                    List.foldl_cons,
                    scanStep_inStr_plain s x3 (isHexChar_ne x3 hhex.2.2.1).1
                      (isHexChar_ne x3 hhex.2.2.1).2,
                    List.foldl_cons,
                    scanStep_inStr_plain s x4 (isHexChar_ne x4 hhex.2.2.2).1
                      (isHexChar_ne x4 hhex.2.2.2).2]
                  exact hseg s
                · rw [if_neg (fun hc => hhex ⟨hc.1, hc.2.1, hc.2.2.1, hc.2.2.2⟩)] at hp
                  simp at hp
            · rw [if_neg hu] at hp
              by_cases hesc : e = '"' ∨ e = '\\' ∨ e = '/' ∨ e = 'b' ∨ e = 'f' ∨
                  e = 'n' ∨ e = 'r' ∨ e = 't'
              · rw [if_pos hesc] at hp
                obtain ⟨pre, hpre, hseg⟩ := ih t2 rest (by simp at hle; omega) hp
                refine ⟨'\\' :: e :: pre, by simp [hpre], ?_⟩
                intro s
                show List.foldl scanStep ⟨s, true, false⟩ _ = _
                rw [List.foldl_cons, scanStep_inStr_backslash,
                  List.foldl_cons, scanStep_inStr_escaped]
                exact hseg s
              · rw [if_neg hesc] at hp
                simp at hp
        · rw [if_neg hb] at hp
          by_cases hc32 : c.toNat < 32
          · rw [if_pos hc32] at hp
            simp at hp
          · rw [if_neg hc32] at hp
            obtain ⟨pre, hpre, hseg⟩ := ih t rest (by simp at hle; omega) hp
            refine ⟨c :: pre, by simp [hpre], ?_⟩
            intro s
            show List.foldl scanStep ⟨s, true, false⟩ _ = _
            rw [List.foldl_cons, scanStep_inStr_plain s c hb hq]
            exact hseg s

/-- Helper: a quote outside a string enters a string and keeps the stack. -/
theorem scanStep_quote_open (s : List Char) :
    scanStep ⟨s, false, false⟩ '"' = ⟨s, true, false⟩ := by
  simp [scanStep]

/-- Helper: an opening brace pushes its closer. -/
theorem scanStep_open_brace (s : List Char) :
    scanStep ⟨s, false, false⟩ '{' = ⟨'}' :: s, false, false⟩ := by
  simp [scanStep]

/-- Helper: an opening bracket pushes its closer. -/
theorem scanStep_open_bracket (s : List Char) :
    scanStep ⟨s, false, false⟩ '[' = ⟨']' :: s, false, false⟩ := by
  simp [scanStep]

/-- Helper: a closer matching the stack top pops it. -/
theorem scanStep_close (cl : Char) (hcl : cl = '}' ∨ cl = ']') (s : List Char) :
    scanStep ⟨cl :: s, false, false⟩ cl = ⟨s, false, false⟩ := by
  rcases hcl with h | h <;> subst h <;> simp [scanStep]

/-- Helper: a full string literal (quote, body, closing quote) is neutral. -/
theorem neutralSeg_string {p : List Char} (h : StrSeg p) :
    NeutralSeg ('"' :: p) := by
  intro s
  show List.foldl scanStep _ _ = _
  rw [List.foldl_cons, scanStep_quote_open]
  exact h s

/-- Helper: a neutral prefix preserves a closing segment. -/
theorem closeSeg_after_neutral {cl : Char} {a b : List Char}
    (ha : NeutralSeg a) (hb : CloseSeg cl b) : CloseSeg cl (a ++ b) := by
  intro s
  show List.foldl scanStep _ _ = _
  rw [List.foldl_append]
  have h1 := ha (cl :: s)
  unfold scanChars at h1
  rw [h1]
  exact hb s

/-- Helper: a neutral segment followed by the matching closer closes. -/
theorem closeSeg_of_neutral {cl : Char} (hcl : cl = '}' ∨ cl = ']')
    {a : List Char} (ha : NeutralSeg a) : CloseSeg cl (a ++ [cl]) := by
  intro s
  show List.foldl scanStep _ _ = _
  rw [List.foldl_append]
  have h1 := ha (cl :: s)
  unfold scanChars at h1
  rw [h1]
  show List.foldl scanStep _ _ = _
  rw [List.foldl_cons, scanStep_close cl hcl s]
  rfl

/-- Helper: an opener, neutral padding and a closing segment are neutral
together. -/
theorem neutralSeg_open_close {op cl : Char}
    (hop : ∀ s : List Char, scanStep ⟨s, false, false⟩ op = ⟨cl :: s, false, false⟩)
    {w b : List Char} (hw : NeutralSeg w) (hb : CloseSeg cl b) :
    NeutralSeg (op :: (w ++ b)) := by
  intro s
  show List.foldl scanStep _ _ = _
  rw [List.foldl_cons, hop s, List.foldl_append]
  have h1 := hw (cl :: s)
  unfold scanChars at h1
  rw [h1]
  exact hb s

/-- Helper: whitespace skipping splits the list. -/
theorem skipJsonWs_split (cs : List Char) :
    cs = cs.takeWhile isJsonWs ++ skipJsonWs cs :=
  (List.takeWhile_append_dropWhile isJsonWs cs).symm

/-- Helper: a verified prefix splits the list. -/
theorem startsWithL_split : ∀ (p cs : List Char), startsWithL p cs = true →
    cs = p ++ cs.drop p.length := by
  intro p
  induction p with
  | nil => intro cs _; rfl
  | cons a as ih =>
    intro cs h
    cases cs with
    | nil => simp [startsWithL] at h
    | cons b bs =>
      simp only [startsWithL, Bool.and_eq_true, decide_eq_true_eq] at h
      obtain ⟨hab, hrest⟩ := h
      subst hab
      simpa using ih bs hrest

/-- Helper: packaging of `scanStep_other` for `neutralSeg_cons`. -/
theorem neutralChar_of_dec (c : Char)
    (h : c ≠ '"' ∧ c ≠ '{' ∧ c ≠ '[' ∧ c ≠ '}' ∧ c ≠ ']') :
    ∀ s : List Char, scanStep ⟨s, false, false⟩ c = ⟨s, false, false⟩ :=
  fun s => scanStep_other s c h.1 h.2.1 h.2.2.1 h.2.2.2.1 h.2.2.2.2

/-- Helper: an accepted integer part is a neutral segment. -/
theorem jsonIntRest_split (cs rest : List Char) (hp : jsonIntRest cs = some rest) :
    ∃ pre, cs = pre ++ rest ∧ NeutralSeg pre := by
  cases cs with
  | nil => simp [jsonIntRest] at hp
  | cons c t =>
    rw [jsonIntRest.eq_def] at hp
    simp only [] at hp
    by_cases h0 : c = '0'
    · rw [if_pos h0] at hp
      injection hp with hp
      subst h0
      subst hp
      exact ⟨['0'], rfl, neutralSeg_of_all (by decide)⟩
    · rw [if_neg h0] at hp
      by_cases hd : c.isDigit = true
      · rw [if_pos hd] at hp
        injection hp with hp
        subst hp
        refine ⟨c :: t.takeWhile Char.isDigit, ?_, ?_⟩
        · simp [List.takeWhile_append_dropWhile]
        · exact neutralSeg_cons (neutralChar_of_dec c (isDigit_nonstructural c hd))
            (neutralSeg_takeWhile_digit t)
      · rw [if_neg hd] at hp
        simp at hp

/-- Helper: an accepted (possibly empty) fraction part is a neutral
segment. -/
theorem jsonFracRest_split (cs rest : List Char)
    (hp : jsonFracRest cs = some rest) :
    ∃ pre, cs = pre ++ rest ∧ NeutralSeg pre := by
  cases cs with
  | nil =>
    rw [jsonFracRest.eq_def] at hp
    simp only [] at hp
    injection hp with hp
    exact ⟨[], by simp [← hp], neutralSeg_nil⟩
  | cons c t =>
    rw [jsonFracRest.eq_def] at hp
    simp only [] at hp
    by_cases hdot : c = '.'
    · rw [if_pos hdot] at hp
      subst hdot
      cases t with
      | nil => simp at hp
      | cons d t2 =>
        simp only [] at hp
        by_cases hd : d.isDigit = true
        · rw [if_pos hd] at hp
          injection hp with hp
          subst hp
          refine ⟨'.' :: (d :: t2).takeWhile Char.isDigit, ?_, ?_⟩
          · simp [List.takeWhile_append_dropWhile]
          · exact neutralSeg_cons (neutralChar_of_dec '.' (by decide))
              (neutralSeg_takeWhile_digit (d :: t2))
        · rw [if_neg hd] at hp
          simp at hp
    · rw [if_neg hdot] at hp
      injection hp with hp
      exact ⟨[], by simp [hp], neutralSeg_nil⟩

/-- Helper: an accepted (possibly empty) exponent part is a neutral
segment. -/
theorem jsonExpRest_split (cs rest : List Char)
    (hp : jsonExpRest cs = some rest) :
    ∃ pre, cs = pre ++ rest ∧ NeutralSeg pre := by
  cases cs with
  | nil =>
    rw [jsonExpRest.eq_def] at hp
    simp only [] at hp
    injection hp with hp
    exact ⟨[], by simp [← hp], neutralSeg_nil⟩
  | cons c t =>
    rw [jsonExpRest.eq_def] at hp
    simp only [] at hp
    by_cases he : c = 'e' ∨ c = 'E'
    · rw [if_pos he] at hp
      cases t with
      | nil => simp at hp
      | cons s0 r2 =>
        simp only [] at hp
        by_cases hs : s0 = '+' ∨ s0 = '-'
        · rw [if_pos hs] at hp
          cases r2 with
          | nil => simp at hp
          | cons d r3 =>
            simp only [] at hp
            by_cases hd : d.isDigit = true
            · rw [if_pos hd] at hp
              injection hp with hp
              subst hp
              refine ⟨c :: s0 :: (d :: r3).takeWhile Char.isDigit, ?_, ?_⟩
              · simp [List.takeWhile_append_dropWhile]
              · refine neutralSeg_cons (neutralChar_of_dec c ?_)
                  (neutralSeg_cons (neutralChar_of_dec s0 ?_)
                    (neutralSeg_takeWhile_digit (d :: r3)))
                · rcases he with h | h <;> subst h <;> decide
                · rcases hs with h | h <;> subst h <;> decide
            · rw [if_neg hd] at hp
              simp at hp
        · rw [if_neg hs] at hp
          by_cases hd : s0.isDigit = true
          · rw [if_pos hd] at hp
            injection hp with hp
            subst hp
            refine ⟨c :: (s0 :: r2).takeWhile Char.isDigit, ?_, ?_⟩
            · simp [List.takeWhile_append_dropWhile]
            · refine neutralSeg_cons (neutralChar_of_dec c ?_)
                (neutralSeg_takeWhile_digit (s0 :: r2))
              rcases he with h | h <;> subst h <;> decide
          · rw [if_neg hd] at hp
            simp at hp
    · rw [if_neg he] at hp
      injection hp with hp
      exact ⟨[], by simp [hp], neutralSeg_nil⟩

/-- Helper: an accepted JSON number is a neutral segment. -/
theorem jsonNumRest_split (cs rest : List Char)
    (hp : jsonNumRest cs = some rest) :
    ∃ pre, cs = pre ++ rest ∧ NeutralSeg pre := by
  simp only [jsonNumRest] at hp
  by_cases hm : cs.head? = some '-'
  · rw [if_pos hm] at hp
    cases cs with
    | nil => simp at hm
    | cons c t =>
      have hc : c = '-' := by simpa using hm
      subst hc
      simp only [List.tail_cons] at hp
      cases h1 : jsonIntRest t with
      | none => rw [h1] at hp; simp at hp
      | some r1 =>
        rw [h1] at hp
        simp only [] at hp
        cases h2 : jsonFracRest r1 with
        | none => rw [h2] at hp; simp at hp
        | some r2 =>
          rw [h2] at hp
          simp only [] at hp
          obtain ⟨p1, hp1, hn1⟩ := jsonIntRest_split t r1 h1
          obtain ⟨p2, hp2, hn2⟩ := jsonFracRest_split r1 r2 h2
          obtain ⟨p3, hp3, hn3⟩ := jsonExpRest_split r2 rest hp
          refine ⟨'-' :: (p1 ++ (p2 ++ p3)), ?_, ?_⟩
          · simp [hp1, hp2, hp3]
          · exact neutralSeg_cons (neutralChar_of_dec '-' (by decide))
              (neutralSeg_append hn1 (neutralSeg_append hn2 hn3))
  · rw [if_neg hm] at hp
    cases h1 : jsonIntRest cs with
    | none => rw [h1] at hp; simp at hp
    | some r1 =>
      rw [h1] at hp
      simp only [] at hp
      cases h2 : jsonFracRest r1 with
      | none => rw [h2] at hp; simp at hp
      | some r2 =>
        rw [h2] at hp
        simp only [] at hp
        obtain ⟨p1, hp1, hn1⟩ := jsonIntRest_split cs r1 h1
        obtain ⟨p2, hp2, hn2⟩ := jsonFracRest_split r1 r2 h2
        obtain ⟨p3, hp3, hn3⟩ := jsonExpRest_split r2 rest hp
        refine ⟨p1 ++ (p2 ++ p3), ?_, ?_⟩
        · simp [hp1, hp2, hp3]
        · exact neutralSeg_append hn1 (neutralSeg_append hn2 hn3)

/-- Helper: the last element of an append with a nonempty right part. -/
theorem getLast?_append_some {α : Type} {b : List α} {x : α} (a : List α)
    (hb : b.getLast? = some x) : (a ++ b).getLast? = some x := by
  induction a with
  | nil => simpa
  | cons y ys ih =>
    rw [List.cons_append]
    cases h : ys ++ b with
    | nil =>
      rcases List.append_eq_nil.mp h with ⟨_, hb0⟩
      rw [hb0] at hb
      simp at hb
    | cons z zs =>
      rw [List.getLast?_cons_cons, ← h, ih]

/-- Helper: the last element behind a cons with a nonempty tail. -/
theorem getLast?_cons_some {α : Type} {b : List α} {x : α} (c : α)
    (hb : b.getLast? = some x) : (c :: b).getLast? = some x :=
  getLast?_append_some [c] hb

/-- Helper: whitespace skipping splits off a neutral prefix. -/
theorem skipJsonWs_split' (cs : List Char) :
    ∃ w, NeutralSeg w ∧ cs = w ++ skipJsonWs cs :=
  ⟨_, neutralSeg_takeWhile_ws cs, skipJsonWs_split cs⟩

/-- Helper: the joint neutrality of the JSON parsers. An accepted value is a
stack-neutral segment (ending in a closing brace when it opens with a brace);
an accepted object/array tail closes the pending brace/bracket. -/
theorem json_scan_neutral : ∀ fuel : Nat,
    (∀ cs rest, jsonValRest fuel cs = some rest →
      ∃ pre, cs = pre ++ rest ∧ NeutralSeg pre ∧
        (cs.head? = some '{' → pre.getLast? = some '}')) ∧
    (∀ cs rest, jsonObjMemb fuel cs = some rest →
      ∃ pre, cs = pre ++ rest ∧ CloseSeg '}' pre ∧ pre.getLast? = some '}') ∧
    (∀ cs rest, jsonArrElem fuel cs = some rest →
      ∃ pre, cs = pre ++ rest ∧ CloseSeg ']' pre) := by
  intro fuel
  induction fuel with
  | zero =>
    refine ⟨?_, ?_, ?_⟩ <;> intro cs rest hp
    · simp [jsonValRest] at hp
    · simp [jsonObjMemb] at hp
    · simp [jsonArrElem] at hp
  | succ fuel ih =>
    obtain ⟨ihV, ihO, ihA⟩ := ih
    refine ⟨?_, ?_, ?_⟩
    · -- values
      intro cs rest hp
      cases cs with
      | nil => simp [jsonValRest] at hp
      | cons c t =>
        simp only [jsonValRest] at hp
        by_cases hq : c = '"'
        · rw [if_pos hq] at hp
          subst hq
          obtain ⟨p, hpre, hstr⟩ := jsonStrRest_strSeg t.length t rest le_rfl hp
          refine ⟨'"' :: p, by simp [hpre], neutralSeg_string hstr, ?_⟩
          intro hh
          rw [List.head?_cons] at hh
          injection hh with hh
          exact absurd hh (by decide)
        · rw [if_neg hq] at hp
          by_cases hbr : c = '{'
          · rw [if_pos hbr] at hp
            subst hbr
            obtain ⟨w, hw, et⟩ := skipJsonWs_split' t
            cases hsk : skipJsonWs t with
            | nil =>
              rw [hsk] at hp
              simp only [] at hp
              obtain ⟨p, hpre, hcl, hlast⟩ := ihO [] rest hp
              have hpn : p = [] := by
                cases p with
                | nil => rfl
                | cons a b => simp at hpre
              subst hpn
              simp at hlast
            | cons c2 r =>
              rw [hsk] at hp
              simp only [] at hp
              rw [hsk] at et
              by_cases h2 : c2 = '}'
              · rw [if_pos h2] at hp
                injection hp with hp
                subst h2
                subst hp
                refine ⟨'{' :: (w ++ ['}']), by simp [et], ?_, ?_⟩
                · exact neutralSeg_open_close scanStep_open_brace hw
                    (closeSeg_of_neutral (Or.inl rfl) neutralSeg_nil)
                · intro _
                  exact getLast?_cons_some '{' (getLast?_append_some w (by simp))
              · rw [if_neg h2] at hp
                obtain ⟨p, hpre, hcl, hlast⟩ := ihO (c2 :: r) rest hp
                refine ⟨'{' :: (w ++ p), ?_, ?_, ?_⟩
                · simp [et, hpre]
                · exact neutralSeg_open_close scanStep_open_brace hw hcl
                · intro _
                  exact getLast?_cons_some '{' (getLast?_append_some w hlast)
          · rw [if_neg hbr] at hp
            by_cases hbk : c = '['
            · rw [if_pos hbk] at hp
              subst hbk
              obtain ⟨w, hw, et⟩ := skipJsonWs_split' t
              cases hsk : skipJsonWs t with
              | nil =>
                rw [hsk] at hp
                simp only [] at hp
                obtain ⟨p, hpre, hcl⟩ := ihA [] rest hp
                have hpn : p = [] := by
                  cases p with
                  | nil => rfl
                  | cons a b => simp at hpre
                subst hpn
                have hcc := hcl []
                simp [scanChars] at hcc
              | cons c2 r =>
                rw [hsk] at hp
                simp only [] at hp
                rw [hsk] at et
                by_cases h2 : c2 = ']'
                · rw [if_pos h2] at hp
                  injection hp with hp
                  subst h2
                  subst hp
                  refine ⟨'[' :: (w ++ [']']), by simp [et], ?_, ?_⟩
                  · exact neutralSeg_open_close scanStep_open_bracket hw
                      (closeSeg_of_neutral (Or.inr rfl) neutralSeg_nil)
                  · intro hh
                    rw [List.head?_cons] at hh
                    injection hh with hh
                    exact absurd hh (by decide)
                · rw [if_neg h2] at hp
                  obtain ⟨p, hpre, hcl⟩ := ihA (c2 :: r) rest hp
                  refine ⟨'[' :: (w ++ p), by simp [et, hpre], ?_, ?_⟩
                  · exact neutralSeg_open_close scanStep_open_bracket hw hcl
                  · intro hh
                    rw [List.head?_cons] at hh
                    injection hh with hh
                    exact absurd hh (by decide)
            · rw [if_neg hbk] at hp
              by_cases hlt : c = 't'
              · rw [if_pos hlt] at hp
                subst hlt
                by_cases hsw : startsWithL (str ("rue")) t = true
                · rw [if_pos hsw] at hp
                  injection hp with hp
                  subst hp
                  have h3 := startsWithL_split (str ("rue")) t hsw
                  refine ⟨'t' :: str ("rue"), by simpa using congrArg (List.cons 't') h3,
                    neutralSeg_of_all (by decide), ?_⟩
                  intro hh
                  rw [List.head?_cons] at hh
                  injection hh with hh
                  exact absurd hh (by decide)
                · rw [if_neg hsw] at hp
                  simp at hp
              · rw [if_neg hlt] at hp
                by_cases hlf : c = 'f'
                · rw [if_pos hlf] at hp
                  subst hlf
                  by_cases hsw : startsWithL (str ("alse")) t = true
                  · rw [if_pos hsw] at hp
                    injection hp with hp
                    subst hp
                    have h3 := startsWithL_split (str ("alse")) t hsw
                    refine ⟨'f' :: str ("alse"), by simpa using congrArg (List.cons 'f') h3,
                      neutralSeg_of_all (by decide), ?_⟩
                    intro hh
                    rw [List.head?_cons] at hh
                    injection hh with hh
                    exact absurd hh (by decide)
                  · rw [if_neg hsw] at hp
                    simp at hp
                · rw [if_neg hlf] at hp
                  by_cases hln : c = 'n'
                  · rw [if_pos hln] at hp
                    subst hln
                    by_cases hsw : startsWithL (str ("ull")) t = true
                    · rw [if_pos hsw] at hp
                      injection hp with hp
                      subst hp
                      have h3 := startsWithL_split (str ("ull")) t hsw
                      refine ⟨'n' :: str ("ull"), by simpa using congrArg (List.cons 'n') h3,
                        neutralSeg_of_all (by decide), ?_⟩
                      intro hh
                      rw [List.head?_cons] at hh
                      injection hh with hh
                      exact absurd hh (by decide)
                    · rw [if_neg hsw] at hp
                      simp at hp
                  · rw [if_neg hln] at hp
                    by_cases hnum : c = '-' ∨ c.isDigit = true
                    · rw [if_pos hnum] at hp
                      obtain ⟨p, hpre, hn⟩ := jsonNumRest_split (c :: t) rest hp
                      refine ⟨p, hpre, hn, ?_⟩
                      intro hh
                      rw [List.head?_cons] at hh
                      injection hh with hh
                      subst hh
                      rcases hnum with h | h
                      · exact absurd h (by decide)
                      · exact absurd h (by decide)
                    · rw [if_neg hnum] at hp
                      simp at hp
    · -- object members
      intro cs rest hp
      cases cs with
      | nil => simp [jsonObjMemb] at hp
      | cons c t =>
        simp only [jsonObjMemb] at hp
        by_cases hq : c = '"'
        · rw [if_pos hq] at hp
          subst hq
          cases h1 : jsonStrRest t with
          | none => rw [h1] at hp; simp at hp
          | some r1 =>
            rw [h1] at hp
            simp only [] at hp
            obtain ⟨ps, hps, hstr⟩ := jsonStrRest_strSeg t.length t r1 le_rfl h1
            obtain ⟨w1, hw1, e1⟩ := skipJsonWs_split' r1
            cases hsk1 : skipJsonWs r1 with
            | nil => rw [hsk1] at hp; simp at hp
            | cons c2 r2 =>
              rw [hsk1] at hp
              simp only [] at hp
              rw [hsk1] at e1
              by_cases hc2 : c2 = ':'
              · rw [if_pos hc2] at hp
                subst hc2
                cases h2 : jsonValRest fuel (skipJsonWs r2) with
                | none => rw [h2] at hp; simp at hp
                | some r3 =>
                  rw [h2] at hp
                  simp only [] at hp
                  obtain ⟨pv, hpv, hnv, _⟩ := ihV (skipJsonWs r2) r3 h2
                  obtain ⟨w2, hw2, e2⟩ := skipJsonWs_split' r2
                  rw [hpv] at e2
                  obtain ⟨w3, hw3, e3⟩ := skipJsonWs_split' r3
                  cases hsk3 : skipJsonWs r3 with
                  | nil => rw [hsk3] at hp; simp at hp
                  | cons c3 r4 =>
                    rw [hsk3] at hp
                    simp only [] at hp
                    rw [hsk3] at e3
                    by_cases hc3 : c3 = ','
                    · rw [if_pos hc3] at hp
                      subst hc3
                      obtain ⟨po, hpo, hco, holast⟩ := ihO (skipJsonWs r4) rest hp
                      obtain ⟨w4, hw4, e4⟩ := skipJsonWs_split' r4
                      rw [hpo] at e4
                      refine ⟨('"' :: ps) ++ (w1 ++ ([':'] ++ (w2 ++ (pv ++
                        (w3 ++ ([','] ++ (w4 ++ po))))))), ?_, ?_, ?_⟩
                      · simp [hps, e1, e2, e3, e4]
                      · exact closeSeg_after_neutral (neutralSeg_string hstr)
                          (closeSeg_after_neutral hw1
                          (closeSeg_after_neutral (neutralSeg_of_all (by decide))
                          (closeSeg_after_neutral hw2
                          (closeSeg_after_neutral hnv
                          (closeSeg_after_neutral hw3
                          (closeSeg_after_neutral (neutralSeg_of_all (by decide))
                          (closeSeg_after_neutral hw4 hco)))))))
                      · exact getLast?_append_some _ (getLast?_append_some _
                          (getLast?_append_some _ (getLast?_append_some _
                          (getLast?_append_some _ (getLast?_append_some _
                          (getLast?_append_some _ (getLast?_append_some _ holast)))))))
                    · rw [if_neg hc3] at hp
                      by_cases hc3b : c3 = '}'
                      · rw [if_pos hc3b] at hp
                        injection hp with hp
                        subst hc3b
                        subst hp
                        refine ⟨('"' :: ps) ++ (w1 ++ ([':'] ++ (w2 ++ (pv ++
                          (w3 ++ ['}']))))), ?_, ?_, ?_⟩
                        · simp [hps, e1, e2, e3]
                        · exact closeSeg_after_neutral (neutralSeg_string hstr)
                            (closeSeg_after_neutral hw1
                            (closeSeg_after_neutral (neutralSeg_of_all (by decide))
                            (closeSeg_after_neutral hw2
                            (closeSeg_after_neutral hnv
                            (closeSeg_of_neutral (Or.inl rfl) hw3)))))
                        · exact getLast?_append_some _ (getLast?_append_some _
                            (getLast?_append_some _ (getLast?_append_some _
                            (getLast?_append_some _ (getLast?_append_some _ (by simp))))))
                      · rw [if_neg hc3b] at hp
                        simp at hp
              · rw [if_neg hc2] at hp
                simp at hp
        · rw [if_neg hq] at hp
          simp at hp
    · -- array elements
      intro cs rest hp
      simp only [jsonArrElem] at hp
      cases h1 : jsonValRest fuel cs with
      | none => rw [h1] at hp; simp at hp
      | some r1 =>
        rw [h1] at hp
        simp only [] at hp
        obtain ⟨pv, hpv, hnv, _⟩ := ihV cs r1 h1
        obtain ⟨w1, hw1, e1⟩ := skipJsonWs_split' r1
        cases hsk : skipJsonWs r1 with
        | nil => rw [hsk] at hp; simp at hp
        | cons c2 r2 =>
          rw [hsk] at hp
          simp only [] at hp
          rw [hsk] at e1
          by_cases hc2 : c2 = ','
          · rw [if_pos hc2] at hp
            subst hc2
            obtain ⟨pa, hpa, hca⟩ := ihA (skipJsonWs r2) rest hp
            obtain ⟨w2, hw2, e2⟩ := skipJsonWs_split' r2
            rw [hpa] at e2
            refine ⟨pv ++ (w1 ++ ([','] ++ (w2 ++ pa))), ?_, ?_⟩
            · simp [hpv, e1, e2]
            · exact closeSeg_after_neutral hnv
                (closeSeg_after_neutral hw1
                (closeSeg_after_neutral (neutralSeg_of_all (by decide))
                (closeSeg_after_neutral hw2 hca)))
          · rw [if_neg hc2] at hp
            by_cases hc2b : c2 = ']'
            · rw [if_pos hc2b] at hp
              injection hp with hp
              subst hc2b
              subst hp
              refine ⟨pv ++ (w1 ++ [']']), ?_, ?_⟩
              · simp [hpv, e1]
              · exact closeSeg_after_neutral hnv
                  (closeSeg_of_neutral (Or.inr rfl) hw1)
            · rw [if_neg hc2b] at hp
              simp at hp

/-- Helper: JSON whitespace is JS whitespace. -/
theorem isWsChar_of_isJsonWs (a : Char) (h : isJsonWs a = true) :
    isWsChar a = true := by
  simp only [isJsonWs, Bool.or_eq_true, decide_eq_true_eq] at h
  rcases h with ((h | h) | h) | h <;> subst h <;> decide

/-- Helper: a syntactically valid trimmed text starting with a brace is a
neutral segment for the balancing scan and ends with a closing brace. -/
theorem jsonValid_decomp (cs : List Char) (hvalid : jsonValid cs = true)
    (htrim : jsTrim cs = cs) (hhead : cs.head? = some '{') :
    NeutralSeg cs ∧ cs.getLast? = some '}' := by
  cases cs with
  | nil => simp at hhead
  | cons c t =>
    rw [List.head?_cons] at hhead
    injection hhead with hc
    subst hc
    have hskip : skipJsonWs ('{' :: t) = '{' :: t :=
      List.dropWhile_cons_of_neg (by decide)
    unfold jsonValid at hvalid
    rw [hskip] at hvalid
    cases hV : jsonValRest (2 * ('{' :: t).length + 2) ('{' :: t) with
    | none => rw [hV] at hvalid; simp at hvalid
    | some rest =>
      rw [hV] at hvalid
      simp only [] at hvalid
      obtain ⟨pre, hpre, hneu, hlastf⟩ := (json_scan_neutral _).1 _ rest hV
      have hlast := hlastf (by rw [List.head?_cons])
      have hrest : rest = [] := by
        by_contra hne
        have hnil : skipJsonWs rest = [] := by
          rwa [List.isEmpty_iff] at hvalid
        have hall := List.dropWhile_eq_nil_iff.mp hnil
        obtain ⟨a, ha⟩ : ∃ a, rest.getLast? = some a := by
          cases rest with
          | nil => exact absurd rfl hne
          | cons y ys =>
            cases hg : (y :: ys).getLast? with
            | none => simp at hg
            | some a => exact ⟨a, rfl⟩
        have haws : isJsonWs a = true :=
          hall a (List.mem_of_mem_getLast? ha)
        have hcl : ('{' :: t).getLast? = some a := by
          rw [hpre]; exact getLast?_append_some pre ha
        have hrev : ('{' :: t).reverse.head? = some a := by
          rw [List.head?_reverse]; exact hcl
        obtain ⟨tl, htl⟩ : ∃ tl, ('{' :: t).reverse = a :: tl := by
          cases hr : ('{' :: t).reverse with
          | nil => rw [hr] at hrev; simp at hrev
          | cons y ys =>
            rw [hr, List.head?_cons] at hrev
            injection hrev with h
            subst h
            exact ⟨ys, rfl⟩
        have hdrop : List.dropWhile isWsChar ('{' :: t) = '{' :: t :=
          List.dropWhile_cons_of_neg (by decide)
        have htr2 : jsTrim ('{' :: t) = ((a :: tl).dropWhile isWsChar).reverse := by
          unfold jsTrim
          rw [hdrop, htl]
        have haw : isWsChar a = true := isWsChar_of_isJsonWs a haws
        have hlenlt : (jsTrim ('{' :: t)).length < ('{' :: t).length := by
          rw [htr2, List.dropWhile_cons_of_pos haw, List.length_reverse]
          have h1 : (tl.dropWhile isWsChar).length ≤ tl.length :=
            (List.dropWhile_suffix _).length_le
          have h2 : (a :: tl).length = ('{' :: t).reverse.length := by rw [htl]
          rw [List.length_reverse] at h2
          simp only [List.length_cons] at h2 ⊢
          omega
        rw [htrim] at hlenlt
        exact lt_irrefl _ hlenlt
      subst hrest
      rw [List.append_nil] at hpre
      rw [hpre]
      exact ⟨hneu, hlast⟩

/-- Helper: `indexOf` at the head. -/
theorem idxOfChar_head (c : Char) (t : List Char) :
    idxOfChar c (c :: t) = some 0 := by
  rw [idxOfChar.eq_def]
  simp

/-- Helper: `indexOf` returns a position inside the text. -/
theorem idxOfChar_lt (c : Char) : ∀ (cs : List Char) (j : Nat),
    idxOfChar c cs = some j → j < cs.length := by
  intro cs
  induction cs with
  | nil => intro j h; simp [idxOfChar] at h
  | cons a t ih =>
    intro j h
    rw [idxOfChar.eq_def] at h
    simp only [] at h
    by_cases hac : a = c
    · rw [if_pos hac] at h
      injection h with h
      subst h
      simp
    · rw [if_neg hac] at h
      cases hi : idxOfChar c t with
      | none => rw [hi] at h; simp at h
      | some j0 =>
        rw [hi] at h
        simp at h
        subst h
        have := ih j0 hi
        simp
        omega

/-- Helper: a list whose last element is known reverses to a cons. -/
theorem reverse_cons_of_getLast {cs : List Char} {a : Char}
    (h : cs.getLast? = some a) : ∃ tl, cs.reverse = a :: tl := by
  have hrev : cs.reverse.head? = some a := by
    rw [List.head?_reverse]; exact h
  cases hr : cs.reverse with
  | nil => rw [hr] at hrev; simp at hrev
  | cons y ys =>
    rw [hr, List.head?_cons] at hrev
    injection hrev with h2
    subst h2
    exact ⟨ys, rfl⟩

/-- Helper: `lastIndexOf` of the last character. -/
theorem lastIdxOfChar_getLast (cs : List Char) (c : Char)
    (h : cs.getLast? = some c) :
    lastIdxOfChar c cs = some (cs.length - 1) := by
  obtain ⟨tl, htl⟩ := reverse_cons_of_getLast h
  unfold lastIdxOfChar
  rw [htl, idxOfChar_head]
  simp

/-- Helper: `lastIndexOf` is at most the last position. -/
theorem lastIdxOfChar_le (c : Char) (cs : List Char) (j : Nat)
    (h : lastIdxOfChar c cs = some j) : j ≤ cs.length - 1 := by
  unfold lastIdxOfChar at h
  cases hi : idxOfChar c cs.reverse with
  | none => rw [hi] at h; simp at h
  | some j0 =>
    rw [hi] at h
    simp only [] at h
    injection h with h
    subst h
    exact Nat.sub_le _ _

/-- Helper: a text whose head is not a backquote starts no fence. -/
theorem startsWithL_bq_ne (l t : List Char) (c : Char) (hc : ¬ c = backquote) :
    startsWithL (backquote :: l) (c :: t) = false := by
  simp only [startsWithL]
  rw [decide_eq_false (show ¬ backquote = c from fun h => hc h.symm)]
  simp

/-- Helper: no leading ```` ```json ```` fence on a brace-headed text. -/
theorem stripFenceJson_noop (cs : List Char) (h : cs.head? = some '{') :
    stripFenceJson cs = cs := by
  cases cs with
  | nil => simp at h
  | cons c t =>
    rw [List.head?_cons] at h
    injection h with h
    subst h
    have hf : startsWithL (backquote :: (backquote :: backquote :: str ("json")))
        ('{' :: t) = false := startsWithL_bq_ne _ _ '{' (by decide)
    unfold stripFenceJson
    simp [hf]

/-- Helper: no leading bare fence on a brace-headed text. -/
theorem stripFenceBare_noop (cs : List Char) (h : cs.head? = some '{') :
    stripFenceBare cs = cs := by
  cases cs with
  | nil => simp at h
  | cons c t =>
    rw [List.head?_cons] at h
    injection h with h
    subst h
    have hf : startsWithL [backquote, backquote, backquote] ('{' :: t) = false := by
      rw [show [backquote, backquote, backquote]
        = backquote :: [backquote, backquote] from rfl]
      exact startsWithL_bq_ne _ _ '{' (by decide)
    unfold stripFenceBare
    simp [hf]

/-- Helper: no trailing fence on a text ending in a closing brace. -/
theorem stripFenceEnd_noop (cs : List Char) (h : cs.getLast? = some '}') :
    stripFenceEnd cs = cs := by
  obtain ⟨tl, htl⟩ := reverse_cons_of_getLast h
  have hf : startsWithL [backquote, backquote, backquote] cs.reverse = false := by
    rw [htl, show [backquote, backquote, backquote]
      = backquote :: [backquote, backquote] from rfl]
    exact startsWithL_bq_ne _ _ '}' (by decide)
  unfold stripFenceEnd
  simp [hf]

/-- Helper: no trailing comma to drop on a text ending in a closing brace. -/
theorem dropTrailingComma_noop (cs : List Char) (h : cs.getLast? = some '}') :
    dropTrailingComma cs = cs := by
  obtain ⟨tl, htl⟩ := reverse_cons_of_getLast h
  unfold dropTrailingComma
  rw [htl]
  simp only []
  rw [if_neg (by decide)]

/-- Helper: `substring 0 (length)` is the identity. -/
theorem jsSubstring_full (cs : List Char) : jsSubstring cs 0 cs.length = cs := by
  simp [jsSubstring, Nat.zero_max, Nat.zero_min]

/-- Helper: without a closer/whitespace/opener adjacency, the separator
replacement is the identity. -/
theorem replacePairFuel_id (op cl : Char) : ∀ (fuel : Nat) (cs : List Char),
    hasPairAdjacency op cl cs = false → replacePairFuel op cl fuel cs = cs := by
  intro fuel
  induction fuel with
  | zero =>
    intro cs h
    cases cs with
    | nil => rfl
    | cons a t => rfl
  | succ fuel ih =>
    intro cs h
    cases cs with
    | nil => rfl
    | cons a t =>
      rw [replacePairFuel.eq_def]
      simp only []
      rw [hasPairAdjacency.eq_def] at h
      simp only [] at h
      rw [Bool.or_eq_false_iff] at h
      obtain ⟨h1, h2⟩ := h
      by_cases hacl : a = cl
      · rw [if_pos hacl]
        subst hacl
        cases hdw : t.dropWhile isWsChar with
        | nil =>
          simp only []
          rw [ih t h2]
        | cons b tail =>
          simp only []
          have hM : (b == op) = false := by
            rw [hdw] at h1
            simpa using h1
          rw [if_neg (by simpa using hM)]
          rw [ih t h2]
      · rw [if_neg hacl]
        rw [ih t h2]

/-- Helper: the repair tail is the identity on a neutral text. -/
theorem repairTail_neutral (cs : List Char) (h : NeutralSeg cs) :
    repairTail cs = cs := by
  simp [repairTail, h []]

/-- C1: on a trimmed syntactically valid JSON object text (brace-headed,
and with no closer/whitespace/opener adjacency that the separator pass
would rewrite), `cleanAndRepairJson` returns its input unchanged. -/
theorem cleanAndRepairJson_valid_id (cs : List Char)
    (hvalid : jsonValid cs = true)
    (htrim : jsTrim cs = cs)
    (hhead : cs.head? = some '{')
    (hbr : hasPairAdjacency '{' '}' cs = false)
    (hbk : hasPairAdjacency '[' ']' cs = false) :
    cleanAndRepairJson cs = cs := by
  obtain ⟨hneu, hlast⟩ := jsonValid_decomp cs hvalid htrim hhead
  have hsfj : stripFenceJson cs = cs := stripFenceJson_noop cs hhead
  have hsfb : stripFenceBare cs = cs := stripFenceBare_noop cs hhead
  have hsfe : stripFenceEnd cs = cs := stripFenceEnd_noop cs hlast
  have hidx : idxOfChar '{' cs = some 0 := by
    cases cs with
    | nil => simp at hhead
    | cons c t =>
      rw [List.head?_cons] at hhead
      injection hhead with h
      subst h
      exact idxOfChar_head '{' t
  have hlbrace : lastIdxOfChar '}' cs = some (cs.length - 1) :=
    lastIdxOfChar_getLast cs '}' hlast
  have hlen1 : 1 ≤ cs.length := by
    cases cs with
    | nil => simp at hhead
    | cons c t => simp
  have hb1 : replaceBraceRun cs = cs := replacePairFuel_id '{' '}' cs.length cs hbr
  have hb2 : replaceBracketRun cs = cs := replacePairFuel_id '[' ']' cs.length cs hbk
  have htn : (((cs.length - 1 : Nat) : Int) + 1).toNat = cs.length := by omega
  cases hlbk : lastIdxOfChar ']' cs with
  | none =>
    simp only [cleanAndRepairJson, htrim, hsfj, hsfb, hsfe, hidx, hlbrace, hlbk]
    have hm : (((cs.length - 1 : Nat) : Int) ⊔ (-1)) = ((cs.length - 1 : Nat) : Int) :=
      sup_eq_left.mpr (by omega)
    rw [hm, if_neg (by omega), htn, jsSubstring_full, hb1, hb2, htrim,
      dropTrailingComma_noop cs hlast, repairTail_neutral cs hneu]
  | some j =>
    have hj : j ≤ cs.length - 1 := lastIdxOfChar_le ']' cs j hlbk
    simp only [cleanAndRepairJson, htrim, hsfj, hsfb, hsfe, hidx, hlbrace, hlbk]
    have hm : (((cs.length - 1 : Nat) : Int) ⊔ (j : Int)) = ((cs.length - 1 : Nat) : Int) :=
      sup_eq_left.mpr (by omega)
    rw [hm, if_neg (by omega), htn, jsSubstring_full, hb1, hb2, htrim,
      dropTrailingComma_noop cs hlast, repairTail_neutral cs hneu]

/-- C1 witness: the theorem applied to the concrete valid object text
`\x7b"a":1\x7d`, all hypotheses checked by evaluation. -/
theorem cleanAndRepairJson_valid_id_witness :
    cleanAndRepairJson (str ("\x7b\x22a\x22:1\x7d")) = str ("\x7b\x22a\x22:1\x7d") :=
  cleanAndRepairJson_valid_id (str ("\x7b\x22a\x22:1\x7d"))
    (by decide) (by decide) (by decide) (by decide) (by decide)

/-- C1 counterexample: `[]` is syntactically valid JSON, yet
`cleanAndRepairJson` rewrites it to `\x7b\x7d` because its cut step looks for a
first opening brace and substitutes the fallback object when none exists. -/
theorem cleanAndRepairJson_counterexample :
    jsonValid (str ("[]")) = true ∧
    cleanAndRepairJson (str ("[]")) ≠ str ("[]") :=
  ⟨by decide, by decide⟩
